import Mathlib

/-!
Verification development for the SLM document-to-dataset distillation
pipeline.  Python source files are shallowly embedded as Lean functions:
text is `List Char`, machine time is `Nat` (minutes), fallible code
returns `Option`/`Except`, and the stateful skills are explicit
state-passing functions.  Each embedded definition is named after the
Python function it is translated from.
-/

namespace SLM

/-! ## Python string primitives

Helpers mirroring the Python `str` operations used by the pipeline:
slicing `s[a:b]`, `str.strip()`, `str.rfind(sub)`, substring membership
(`sub in s`), `str.lower()` and `'\n'.join`. -/

/-- The whitespace set of Python `str.strip()` / regex `\s` restricted to
the ASCII whitespace characters (space, newline, tab, carriage return,
vertical tab, form feed); the pipeline never manufactures the more exotic
Unicode space characters. -/
def pyIsSpace (c : Char) : Bool :=
  c = ' ' || c = '\n' || c = '\t' || c = '\r' || c = Char.ofNat 11 || c = Char.ofNat 12

/-- Python `s[a:b]` for `0 ≤ a ≤ b` (clamping at the ends like Python). -/
def pySlice (s : List Char) (a b : Nat) : List Char :=
  (s.take b).drop a

/-- Python `str.strip()`: drop whitespace from both ends. -/
def pyStrip (s : List Char) : List Char :=
  ((s.dropWhile pyIsSpace).reverse.dropWhile pyIsSpace).reverse

/-- `pyStrip` on `String`s. -/
def pyStripStr (s : String) : String :=
  ⟨pyStrip s.data⟩

/-- Python `str.lower()` (ASCII lowering suffices for the error keywords
the pipeline matches on). -/
def pyLower (s : String) : String :=
  ⟨s.data.map Char.toLower⟩

/-- Does the pattern `pat` occur in `s` starting at index `i`? -/
def matchesAt (s pat : List Char) (i : Nat) : Bool :=
  (s.drop i).take pat.length = pat

/-- Scan downward from index `i` for the highest match position. -/
def listRfindAux (s pat : List Char) : Nat → Option Nat
  | 0 => if matchesAt s pat 0 then some 0 else none
  | i + 1 => if matchesAt s pat (i + 1) then some (i + 1) else listRfindAux s pat i

/-- Python `s.rfind(pat)`: index of the last occurrence of `pat` in `s`,
`none` when `pat` does not occur (`-1` in Python). -/
def listRfind (s pat : List Char) : Option Nat :=
  if pat.length ≤ s.length then listRfindAux s pat (s.length - pat.length) else none

/-- Python `pat in s` (substring containment). -/
def containsSub (s pat : List Char) : Bool :=
  (listRfind s pat).isSome

/-- Python `'\n\n'.join(parts)` (the paragraph joiner of the smart chunker). -/
def joinNN (parts : List (List Char)) : List Char :=
  List.intercalate ['\n', '\n'] parts

/-! ## `split_text_into_chunks` (src/data_prep/distiller.py)

The boundary-aware splitter.  It advances in steps of `chunk_size`; at a
prospective boundary strictly inside the text it searches a window of
±200 characters around the raw offset for the last occurrence of each
delimiter, trying the delimiters in the order `['。\n', '。', '！', '？',
'\n\n']`, and cuts after the first delimiter that occurs; otherwise it
cuts at the raw offset.  Each chunk is `text[start:end].strip()` and is
kept only when non-empty; the next chunk starts `overlap` characters
before the previous cut unless the text is exhausted. -/

/-- The delimiter priority list of `split_text_into_chunks`
(`['。\n', '。', '！', '？', '\n\n']` in the source). -/
def chunkDelimiters : List (List Char) :=
  [['。', '\n'], ['。'], ['！'], ['？'], ['\n', '\n']]

/-- The `for delimiter in [...]: pos = search_text.rfind(delimiter); if pos
!= -1: ... break` loop: the last occurrence of the first delimiter that
occurs in the search window, together with that delimiter's length. -/
def findDelimCut : List (List Char) → List Char → Option (Nat × Nat)
  | [], _ => none
  | d :: ds, s =>
    match listRfind s d with
    | some pos => some (pos, d.length)
    | none => findDelimCut ds s

/-- The cut-point computation for one chunk: the body of the `while` loop
of `split_text_into_chunks` that chooses `end` for a chunk starting at
`start`. -/
def cutEnd (text : List Char) (chunkSize start : Nat) : Nat :=
  if start + chunkSize < text.length then
    match findDelimCut chunkDelimiters
        (pySlice text (max (start + chunkSize - 200) start)
          (min (start + chunkSize + 200) text.length)) with
    | some (pos, dlen) => max (start + chunkSize - 200) start + pos + dlen
    | none => start + chunkSize
  else start + chunkSize

/-- The `while start < len(text)` loop of `split_text_into_chunks`,
recorded as the list of `(start, end)` cut positions.  `fuel` bounds the
iteration count; `text.length + 1` iterations always suffice for the
configurations considered (each step advances `start`). -/
def splitGo (text : List Char) (chunkSize overlap : Nat) : Nat → Nat → List (Nat × Nat)
  | 0, _ => []
  | fuel + 1, start =>
    if start < text.length then
      (start, cutEnd text chunkSize start) ::
        splitGo text chunkSize overlap fuel
          (if cutEnd text chunkSize start < text.length then
            cutEnd text chunkSize start - overlap
          else cutEnd text chunkSize start)
    else []

/-- All `(start, end)` positions emitted by the splitter loop. -/
def splitPositions (text : List Char) (chunkSize overlap : Nat) : List (Nat × Nat) :=
  splitGo text chunkSize overlap (text.length + 1) 0

/-- `split_text_into_chunks(text, chunk_size, overlap)`: a text of at most
`chunk_size` characters is returned whole; otherwise each loop emission
contributes `text[start:end].strip()`, kept when non-empty. -/
def split_text_into_chunks (text : List Char) (chunkSize overlap : Nat) : List (List Char) :=
  if text.length ≤ chunkSize then [text]
  else
    ((splitPositions text chunkSize overlap).map
      (fun p => pyStrip (pySlice text p.1 p.2))).filter (fun c => ¬ c = [])

/-- Modelled from the spec (for comparison with `cutEnd`, not from the
source): the cut point as §4.3 words it — search the ±200 window for the
occurrence NEAREST to the target offset of each delimiter, trying the
delimiters in the spec's priority order full stop, question mark,
exclamation mark, double newline.  Ties in distance prefer the earlier
occurrence (the spec does not say; the comparison input below has no
ties). -/
def specNearestOcc (w d : List Char) (target : Nat) : Option Nat :=
  (List.range (w.length + 1)).foldl
    (fun best i =>
      if matchesAt w d i then
        match best with
        | none => some i
        | some b =>
          if (max i target - min i target) < (max b target - min b target) then some i else some b
      else best)
    none

/-- Modelled from the spec: delimiter priority as the spec lists it. -/
def specDelimiters : List (List Char) :=
  [['。'], ['？'], ['！'], ['\n', '\n']]

/-- Modelled from the spec: first delimiter (in the spec's priority order)
with an occurrence in the window, cutting at its nearest occurrence. -/
def specFirstHit (w : List Char) (target searchStart : Nat) : List (List Char) → Option Nat
  | [] => none
  | d :: ds =>
    match specNearestOcc w d target with
    | some i => some (searchStart + i + d.length)
    | none => specFirstHit w target searchStart ds

/-- Modelled from the spec: the claimed cut-point computation. -/
def specCutEnd (text : List Char) (chunkSize start : Nat) : Nat :=
  let end0 := start + chunkSize
  if end0 < text.length then
    let searchStart := max (start + chunkSize - 200) start
    let searchEnd := min (start + chunkSize + 200) text.length
    let w := pySlice text searchStart searchEnd
    let target := end0 - searchStart
    (specFirstHit w target searchStart specDelimiters).getD end0
  else end0

/-! ## `SmartChunkerSkill._smart_chunk` (src/skills/chunk_smart.py)

The `'smart'` strategy: split the text into paragraphs (regex
`\n\s*\n`), accumulate paragraphs into a current chunk; when adding a
paragraph would exceed `chunk_size`, flush the current chunk (recording
`chunk_id`, `text`, `start_pos`, `end_pos` and metadata) and seed the
next chunk with the last `overlap` characters of the flushed text.  A
paragraph longer than `chunk_size` is split into sentences (regex
`([。！？\.!?]+)` with the delimiter run re-attached) and accumulated the
same way. -/

/-- The regex `\n\s*\n` match attempt at index `i` (used by
`_split_paragraphs`): succeeds when `text[i]` is a newline and the
maximal whitespace run following it contains another newline; the match
extends to the last newline of that run (greedy `\s*` with
backtracking).  Returns the exclusive end index of the match. -/
def matchDN (s : List Char) (i : Nat) : Option Nat :=
  if s.getD i ' ' = '\n' ∧ i < s.length then
    let run := ((s.drop (i + 1)).takeWhile pyIsSpace)
    (listRfind run ['\n']).map (fun p => i + 2 + p)
  else none

/-- Leftmost `\n\s*\n` match at index ≥ `i`; `fuel` bounds the scan
(`s.length` suffices).  Returns (match start, match end). -/
def findDN (s : List Char) : Nat → Nat → Option (Nat × Nat)
  | 0, _ => none
  | fuel + 1, i =>
    if i < s.length then
      match matchDN s i with
      | some e => some (i, e)
      | none => findDN s fuel (i + 1)
    else none

/-- `re.split(r'\n\s*\n', s)` from position `pos`: emit the piece before
each match and continue after it.  Every match consumes ≥ 2 characters,
so `s.length + 1` fuel suffices. -/
def reSplitDN (s : List Char) : Nat → Nat → List (List Char)
  | 0, pos => [s.drop pos]
  | fuel + 1, pos =>
    match findDN s (s.length + 1) pos with
    | some (i, e) => pySlice s pos i :: reSplitDN s fuel e
    | none => [s.drop pos]

/-- `_split_paragraphs`: regex split on blank lines, each piece stripped,
empty pieces dropped. -/
def splitParagraphs (s : List Char) : List (List Char) :=
  ((reSplitDN s (s.length + 1) 0).map pyStrip).filter (fun p => ¬ p = [])

/-- The sentence-ending punctuation class `[。！？\.!?]` of
`_split_sentences`. -/
def isSentPunct (c : Char) : Bool :=
  c = '。' || c = '！' || c = '？' || c = '.' || c = '!' || c = '?'

/-- `re.split(r'([。！？\.!?]+)', s)` with each text piece re-joined to the
delimiter run that follows it (the merging loop of `_split_sentences`),
plus the trailing text piece.  `fuel ≥ s.length + 1` suffices (every
delimiter run is non-empty). -/
def sentSplitRaw (s : List Char) : Nat → List (List Char)
  | 0 => [s]
  | fuel + 1 =>
    let t := s.takeWhile (fun c => ¬ isSentPunct c)
    let r := s.dropWhile (fun c => ¬ isSentPunct c)
    if r = [] then [t]
    else
      let d := r.takeWhile isSentPunct
      (t ++ d) :: sentSplitRaw (r.dropWhile isSentPunct) fuel

/-- `_split_sentences`: sentences with their punctuation, stripped, empty
ones dropped. -/
def splitSentences (s : List Char) : List (List Char) :=
  ((sentSplitRaw s (s.length + 1)).map pyStrip).filter (fun p => ¬ p = [])

/-- Python `combined[-overlap:]` (note `s[-0:]` is the whole string). -/
def tailSlice (s : List Char) (ov : Nat) : List Char :=
  if ov = 0 then s else s.drop (s.length - ov)

/-- `_get_overlap_text`: the last `overlap` characters of the joined
current chunk (the whole text when it is at most `overlap` long). -/
def getOverlapText (cur : List (List Char)) (ov : Nat) : List Char :=
  if cur = [] then []
  else
    let combined := joinNN cur
    if combined.length ≤ ov then combined else tailSlice combined ov

/-- `_extract_chunk_metadata`: the first outline entry whose title occurs
in the chunk text, as (title, level); `none` when structure is not
respected or the outline is empty or nothing matches. -/
def chunkMeta (respect : Bool) (outline : List (Nat × List Char))
    (chunkText : List Char) : Option (List Char × Nat) :=
  if respect ∧ ¬ outline = [] then
    (outline.find? (fun it => containsSub chunkText it.2)).map (fun it => (it.2, it.1))
  else none

/-- One chunk record produced by `SmartChunkerSkill` (`chunk_id`, `text`,
`start_pos`, `end_pos`, metadata section). -/
structure SChunk where
  id : Nat
  text : List Char
  startPos : Nat
  endPos : Nat
  md : Option (List Char × Nat)
  deriving Repr, DecidableEq

/-- The accumulator of `_smart_chunk`: produced chunks, the current chunk's
pieces, `current_size`, `start_pos` and `chunk_id`. -/
structure CState where
  acc : List SChunk
  cur : List (List Char)
  size : Nat
  start : Nat
  id : Nat
  deriving Repr, DecidableEq

/-- The chunk-saving block of `_smart_chunk`: record the joined current
chunk, then seed the next chunk with the overlap text. -/
def flushChunk (respect : Bool) (outline : List (Nat × List Char)) (ov : Nat)
    (st : CState) : CState :=
  let text := joinNN st.cur
  let c : SChunk := ⟨st.id, text, st.start, st.start + text.length, chunkMeta respect outline text⟩
  let ot := getOverlapText st.cur ov
  { acc := st.acc ++ [c]
    cur := if ot = [] then [] else [ot]
    size := if ot = [] then 0 else ot.length
    start := st.start + text.length - (if ot = [] then 0 else ot.length)
    id := st.id + 1 }

/-- The body of the inner `for sentence in sentences` loop of
`_smart_chunk`. -/
def addSentence (respect : Bool) (outline : List (Nat × List Char)) (cs ov : Nat)
    (st : CState) (s : List Char) : CState :=
  let st := if st.size + s.length > cs ∧ ¬ st.cur = [] then flushChunk respect outline ov st else st
  { st with cur := st.cur ++ [s], size := st.size + s.length }

/-- The body of the outer `for para in paragraphs` loop of `_smart_chunk`. -/
def procPara (respect : Bool) (outline : List (Nat × List Char)) (cs ov : Nat)
    (st : CState) (para : List Char) : CState :=
  let st := if st.size + para.length > cs ∧ ¬ st.cur = [] then flushChunk respect outline ov st else st
  if para.length > cs then
    (splitSentences para).foldl (addSentence respect outline cs ov) st
  else
    { st with cur := st.cur ++ [para], size := st.size + para.length }

/-- `SmartChunkerSkill._smart_chunk(content, structure, chunk_size,
overlap)`: short texts give a single whole-text chunk; otherwise the
paragraph accumulation loop runs, with a final flush of the pending
chunk. -/
def smartChunk (content : List Char) (outline : List (Nat × List Char))
    (cs ov : Nat) (respect : Bool) : List SChunk :=
  if content.length ≤ cs then [⟨0, content, 0, content.length, none⟩]
  else
    let paras := splitParagraphs content
    let st := paras.foldl (procPara respect outline cs ov) ⟨[], [], 0, 0, 0⟩
    if ¬ st.cur = [] then (flushChunk respect outline ov st).acc else st.acc

/-- The overlap relation between consecutive smart-chunker chunks: the
next chunk starts `min (length of the previous chunk's text) overlap`
characters before the previous chunk's end (the seed is the whole
previous text when it is shorter than `overlap`). -/
def chunkRel (ov : Nat) (c c' : SChunk) : Prop :=
  c'.startPos = c.endPos - min c.text.length ov

/-- The loop invariant of `_smart_chunk`: produced chunks satisfy the
overlap chain, record consistent offsets, start at 0, the pending pieces
are non-empty, and the pending start position continues the chain. -/
def smartInv (ov : Nat) (st : CState) : Prop :=
  List.Chain' (chunkRel ov) st.acc ∧
  (∀ c ∈ st.acc, c.endPos = c.startPos + c.text.length) ∧
  (∀ x ∈ st.cur, ¬ x = []) ∧
  (∀ c ∈ st.acc.head?, c.startPos = 0) ∧
  (match st.acc.getLast? with
   | some c => st.start = c.endPos - min c.text.length ov
   | none => st.start = 0)

/-! ## `DataDistillerSkill` (src/skills/aug_qa_distill.py)

The checkpointed distillation loop.  `_split_content` chunks the input
line-wise; `execute` resumes from the checkpoint's
`last_processed_chunk + 1`, calls the LLM once per chunk, appends the
returned pairs to the output JSONL file, saves a checkpoint after every
chunk (on failure with `last_processed_chunk = i - 1` and the error),
aborts the document when the failure count passes the 30% threshold
(retaining the checkpoint), and deletes the checkpoint on completion.

The LLM call `_generate_qa_pairs(chunks[i], qa_per_chunk)` is a stubbed
external collaborator: an oracle `f : Nat → DistillOutcome` giving the
outcome for chunk `i` (deterministic, as the resume-idempotence property
assumes). -/

/-- One question/answer pair. -/
structure QAPair where
  question : String
  answer : String
  deriving Repr, DecidableEq

/-- The accumulator of the `_split_content` line loop. -/
structure SplitAcc where
  chunks : List (List Char)
  cur : List (List Char)
  size : Nat
  deriving Repr

/-- The body of the `for line in lines` loop of `_split_content`. -/
def splitContentStep (chunkSize : Nat) (a : SplitAcc) (line : List Char) : SplitAcc :=
  let a :=
    if a.size + line.length > chunkSize ∧ ¬ a.cur = [] then
      ⟨a.chunks ++ [List.intercalate ['\n'] a.cur], [], 0⟩
    else a
  ⟨a.chunks, a.cur ++ [line], a.size + line.length + 1⟩

/-- `_split_content(content)`: split on newlines, accumulate lines into
chunks of at most `chunk_size` characters (counting one separator per
line), flushing the pending lines at the end. -/
def splitContent (content : List Char) (chunkSize : Nat) : List (List Char) :=
  let a := (content.splitOn '\n').foldl (splitContentStep chunkSize) ⟨[], [], 0⟩
  if ¬ a.cur = [] then a.chunks ++ [List.intercalate ['\n'] a.cur] else a.chunks

/-- The checkpoint JSON written by `_save_checkpoint` (the timestamp is
not modelled; nothing reads it).  `lastProcessed` is an `Int` because the
failure path stores `i - 1`, which is `-1` when chunk 0 fails. -/
structure Checkpoint where
  sourceFile : String
  totalChunks : Nat
  lastProcessed : Int
  totalQaPairs : Nat
  lastError : Option String
  deriving Repr, DecidableEq

/-- Outcome of `_generate_qa_pairs` on one chunk: a pair list (possibly
empty), or a raised exception with its message. -/
inductive DistillOutcome where
  | ok (pairs : List QAPair)
  | err (msg : String)
  deriving Repr, DecidableEq

/-- The mutable state of one `execute` run: the output JSONL file
contents, the checkpoint file, and the counters. -/
structure DState where
  output : List QAPair
  checkpoint : Option Checkpoint
  totalQa : Nat
  apiCalls : Nat
  failed : Nat
  deriving Repr, DecidableEq

/-- One iteration of the `for i in range(start_chunk, len(chunks))` loop
of `execute`.  Returns the new state and whether the run aborted
(`RuntimeError` once `failed_chunks > len(chunks) * 0.3`; the comparison
is written rationally as `10 * failed > 3 * N`, which agrees with the
Python float comparison at every instance considered here, in particular
for 10-chunk documents). -/
def distillStep (src : String) (N : Nat) (f : Nat → DistillOutcome)
    (st : DState) (i : Nat) : DState × Bool :=
  match f i with
  | .ok pairs =>
    let st := { st with apiCalls := st.apiCalls + 1 }
    let st :=
      if ¬ pairs = [] then
        { st with output := st.output ++ pairs, totalQa := st.totalQa + pairs.length }
      else { st with failed := st.failed + 1 }
    ({ st with checkpoint := some ⟨src, N, (i : Int), st.totalQa, none⟩ }, false)
  | .err msg =>
    let st := { st with failed := st.failed + 1,
                        checkpoint := some ⟨src, N, (i : Int) - 1, st.totalQa, some msg⟩ }
    (st, decide (10 * st.failed > 3 * N))

/-- The chunk loop of `execute` over the remaining chunk indices; an
abort stops the loop and propagates the final state. -/
def distillRun (src : String) (N : Nat) (f : Nat → DistillOutcome) :
    List Nat → DState → DState × Bool
  | [], st => (st, false)
  | i :: rest, st =>
    if (distillStep src N f st i).2 then ((distillStep src N f st i).1, true)
    else distillRun src N f rest (distillStep src N f st i).1

/-- The `start_chunk` computation of `execute`: `0`, or
`checkpoint['last_processed_chunk'] + 1` when resuming with an existing
checkpoint file. -/
def resumeStart (cp : Option Checkpoint) (resume : Bool) : Int :=
  if resume then
    match cp with
    | some c => c.lastProcessed + 1
    | none => 0
  else 0

/-- `DataDistillerSkill.execute`: chunk the content, pick the start chunk
from the checkpoint, run the loop, and delete the checkpoint file on
completion (`true` in the second component = the run raised
`RuntimeError`, i.e. the document aborted and the checkpoint is
retained). -/
def executeDistill (src : String) (f : Nat → DistillOutcome) (content : List Char)
    (chunkSize : Nat) (cp0 : Option Checkpoint) (resume : Bool)
    (initOutput : List QAPair) : DState × Bool :=
  let chunks := splitContent content chunkSize
  let N := chunks.length
  let start := (resumeStart cp0 resume).toNat
  let r := distillRun src N f ((List.range N).drop start) ⟨initOutput, cp0, 0, 0, 0⟩
  if r.2 then r else ({ r.1 with checkpoint := none }, false)

/-- The pairs a chunk contributes on the success path (`[]` for a failed
chunk). -/
def okPairs (f : Nat → DistillOutcome) (i : Nat) : List QAPair :=
  match f i with
  | .ok ps => ps
  | .err _ => []

/-! ## `DataDistillerSkill._parse_response` (src/skills/aug_qa_distill.py)

The response validator, starting from the JSON value produced by
`json.loads` on the extracted `[...]` block.  JSON values are modelled by
`JVal`; `.strip()` on a non-string field raises (modelled as `none`,
propagating like the Python `AttributeError`). -/

/-- A JSON value as produced by `json.loads`. -/
inductive JVal where
  | jstr (s : String)
  | jnum (n : Int)
  | jbool (b : Bool)
  | jnull
  | jarr (xs : List JVal)
  | jobj (fields : List (String × JVal))
  deriving Repr

/-- `v.strip()`: defined for strings only; anything else raises
`AttributeError` in Python. -/
def jStrip : JVal → Option String
  | .jstr s => some (pyStripStr s)
  | _ => none

/-- The `for pair in qa_pairs` validation loop of `_parse_response`:
elements that are dicts containing both `'question'` and `'answer'` keys
contribute a stripped pair; other elements are skipped.  `none` models a
raised exception (non-string field). -/
def validateLoop : List JVal → Option (List (String × String))
  | [] => some []
  | it :: rest =>
    match it with
    | .jobj fs =>
      match fs.lookup "question", fs.lookup "answer" with
      | some qv, some av => do
        let q ← jStrip qv
        let a ← jStrip av
        let tl ← validateLoop rest
        some ((q, a) :: tl)
      | _, _ => validateLoop rest
    | _ => validateLoop rest

/-- The validation part of `_parse_response` applied to the parsed JSON
value: a non-list value falls through to `return []`. -/
def parseResponsePairs : JVal → Option (List (String × String))
  | .jarr items => validateLoop items
  | _ => some []

/-! ## `APIManagerSkill` (src/skills/api_manager.py)

The credential pool for one provider: a list of per-credential stats
records indexed by position (the `api_id` suffix), the round-robin
`current_index`, and the configuration knobs.  Wall-clock time is an
abstract `Nat` in minutes, passed explicitly where the Python calls
`datetime.now()`. -/

/-- The per-credential stats record initialised by `_add_api`. -/
structure ApiStats where
  totalCalls : Nat
  successCalls : Nat
  failedCalls : Nat
  consecutiveFailures : Nat
  lastSuccess : Option Nat
  lastFailure : Option Nat
  cooldownUntil : Option Nat
  isActive : Bool
  deriving Repr, DecidableEq

/-- The fresh stats record (`_add_api`). -/
def ApiStats.init : ApiStats :=
  ⟨0, 0, 0, 0, none, none, none, true⟩

/-- One provider's slice of `APIManagerSkill`: its credential stats list,
`current_index`, and the manager's configuration. -/
structure ApiManager where
  stats : List ApiStats
  currentIndex : Nat
  autoRotate : Bool
  failureThreshold : Nat
  cooldownMinutes : Nat
  deriving Repr, DecidableEq

/-- `_is_api_available(api_id)` on one stats record: disabled → no;
cooling down → no; expired cooldown → reset the cooldown and the failure
counter and yes; otherwise yes.  Returns the (possibly reset) record
alongside, since the Python mutates the stats dict in place. -/
def isApiAvailable (now : Nat) (s : ApiStats) : Bool × ApiStats :=
  if ¬ s.isActive then (false, s)
  else
    match s.cooldownUntil with
    | some cu =>
      if now < cu then (false, s)
      else (true, { s with cooldownUntil := none, consecutiveFailures := 0 })
    | none => (true, s)

/-- The `for i in range(len(apis))` scan of `get_available_api`: try
indices `(start + i) % K` in order, returning the first available one;
`fuel` starts at `K`. -/
def gaaGo (now K start : Nat) : Nat → Nat → List ApiStats → Option Nat × List ApiStats
  | 0, _, stats => (none, stats)
  | fuel + 1, i, stats =>
    let index := (start + i) % K
    let r := isApiAvailable now (stats.getD index ApiStats.init)
    let stats' := stats.set index r.2
    if r.1 then (some index, stats') else gaaGo now K start fuel (i + 1) stats'

/-- `get_available_api(provider)`: `none` when the provider has no
credentials; otherwise the round-robin scan from `current_index`, which
on success advances `current_index` past the returned credential when
`auto_rotate` is set.  The returned `Nat` is the credential's index (the
`api_id`). -/
def getAvailableApi (now : Nat) (m : ApiManager) : Option Nat × ApiManager :=
  if m.stats = [] then (none, m)
  else
    let K := m.stats.length
    let r := gaaGo now K m.currentIndex K 0 m.stats
    match r.1 with
    | some idx =>
      (some idx,
        { m with stats := r.2
                 currentIndex := if m.autoRotate then (idx + 1) % K else m.currentIndex })
    | none => (none, { m with stats := r.2 })

/-- `report_success` on one stats record. -/
def succStat (now : Nat) (s : ApiStats) : ApiStats :=
  { s with totalCalls := s.totalCalls + 1
           successCalls := s.successCalls + 1
           consecutiveFailures := 0
           lastSuccess := some now }

/-- `report_failure` on one stats record: bump the counters and enter
cooldown once `consecutive_failures` reaches the threshold. -/
def failStat (threshold cooldownMinutes now : Nat) (s : ApiStats) : ApiStats :=
  let s := { s with totalCalls := s.totalCalls + 1
                    failedCalls := s.failedCalls + 1
                    consecutiveFailures := s.consecutiveFailures + 1
                    lastFailure := some now }
  if s.consecutiveFailures ≥ threshold then
    { s with cooldownUntil := some (now + cooldownMinutes) }
  else s

/-- `report_success(api_id)`: unknown ids are ignored. -/
def reportSuccess (now : Nat) (i : Nat) (m : ApiManager) : ApiManager :=
  if i < m.stats.length then
    { m with stats := m.stats.set i (succStat now (m.stats.getD i ApiStats.init)) }
  else m

/-- `report_failure(api_id, error)`: unknown ids are ignored. -/
def reportFailure (now : Nat) (i : Nat) (m : ApiManager) : ApiManager :=
  if i < m.stats.length then
    { m with stats :=
        m.stats.set i (failStat m.failureThreshold m.cooldownMinutes now
          (m.stats.getD i ApiStats.init)) }
  else m

/-- `n` consecutive `report_failure` calls at time `t` on one stats
record. -/
def failN (threshold cooldownMinutes t : Nat) (s : ApiStats) : Nat → ApiStats
  | 0 => s
  | n + 1 => failStat threshold cooldownMinutes t (failN threshold cooldownMinutes t s n)

/-- The round-robin fairness experiment: `n` rounds of
`get_available_api` followed by `report_success` on the returned
credential, collecting the returned indices. -/
def acquireSuccessRun (now : Nat) : Nat → ApiManager → List (Option Nat) × ApiManager
  | 0, m => ([], m)
  | n + 1, m =>
    let r := getAvailableApi now m
    let m2 := match r.1 with
      | some i => reportSuccess now i r.2
      | none => r.2
    let rest := acquireSuccessRun now n m2
    (r.1 :: rest.1, rest.2)

/-! ## `distill_with_gemini` / `DataDistiller.process_file`
(src/data_prep/distiller.py) and `APIKeyRotator`
(src/utils/api_key_rotator.py)

The error-classification and failover layer.  The Gemini call (network +
JSON parsing + field validation) is an oracle per attempt; the error
branches mirror the `except` clauses: quota errors rotate the key pool
and recurse, context-too-long errors are re-raised as a distinct
`CONTEXT_TOO_LONG:` signal without touching the pool, other errors mark
the key and propagate.  `process_file` catches the signal and retries
the same text against the Zhipu provider. -/

/-- Per-key status of `APIKeyRotator`. -/
structure KeyStatus where
  lastUsed : Option Nat
  errorCount : Nat
  totalCalls : Nat
  isAvailable : Bool
  deriving Repr, DecidableEq

/-- `APIKeyRotator`: key statuses indexed by position in `api_keys`,
the current index, and the cooldown in minutes. -/
structure Rotator where
  status : List KeyStatus
  currentIndex : Nat
  cooldownMinutes : Nat
  deriving Repr, DecidableEq

/-- `mark_success`. -/
def rotMarkSuccess (now : Nat) (r : Rotator) : Rotator :=
  let st := r.status.modify
    (fun s => { s with lastUsed := some now, totalCalls := s.totalCalls + 1, errorCount := 0 })
    r.currentIndex
  { r with status := st }

/-- `_check_cooldown`: re-enable keys whose cooldown has elapsed. -/
def rotCheckCooldown (now : Nat) (r : Rotator) : Rotator :=
  { r with status := r.status.map (fun s =>
      match s.lastUsed with
      | some t =>
        if ¬ s.isAvailable ∧ r.cooldownMinutes ≤ now - t then
          { s with isAvailable := true, errorCount := 0 }
        else s
      | none => s) }

/-- The `while attempts < len(api_keys)` scan of
`_rotate_to_next_available`. -/
def rotScan (r : Rotator) : Nat → Nat → Option Nat
  | 0, _ => none
  | fuel + 1, idx =>
    let idx' := (idx + 1) % r.status.length
    if (r.status.getD idx' ⟨none, 0, 0, true⟩).isAvailable then some idx'
    else rotScan r fuel idx'

/-- `_rotate_to_next_available`: check cooldowns, then advance to the next
available key; `none` models the `RuntimeError` when every key is
unavailable. -/
def rotateToNextAvailable (now : Nat) (r : Rotator) : Option Rotator :=
  let r := rotCheckCooldown now r
  match rotScan r r.status.length r.currentIndex with
  | some idx => some { r with currentIndex := idx }
  | none => none

/-- `mark_quota_exceeded`: disable the current key, stamp it, and rotate.
The first component is the rotator after the disabling (returned even
when rotation raises); the second is `some` of the rotated state, or
`none` for the raised `RuntimeError`. -/
def rotMarkQuotaExceeded (now : Nat) (r : Rotator) : Rotator × Option Rotator :=
  let st := r.status.modify
    (fun s => { s with isAvailable := false, lastUsed := some now }) r.currentIndex
  let r := { r with status := st }
  (r, rotateToNextAvailable now r)

/-- `mark_error`: bump the error count; at 3 errors disable the key and
rotate (the rotation's `RuntimeError`, when every key is down, escapes
`mark_error`: second component `true`). -/
def rotMarkError (now : Nat) (r : Rotator) : Rotator × Bool :=
  let st := r.status.modify (fun s => { s with errorCount := s.errorCount + 1 }) r.currentIndex
  let r := { r with status := st }
  if 3 ≤ (r.status.getD r.currentIndex ⟨none, 0, 0, true⟩).errorCount then
    let st2 := r.status.modify (fun s => { s with isAvailable := false }) r.currentIndex
    let r := { r with status := st2 }
    match rotateToNextAvailable now r with
    | some r' => (r', false)
    | none => (rotCheckCooldown now r, true)
  else (r, false)

/-- Outcome of one Gemini attempt (the API call, the truncation repair,
`json.loads`, and the per-item field validation taken together):
a validated pair list, a `json.JSONDecodeError`, or any other raised
exception with its message. -/
inductive GemOutcome where
  | ok (pairs : List QAPair)
  | jsonErr (msg : String)
  | err (msg : String)
  deriving Repr

/-- The error classes distinguished by the `except` clause of
`distill_with_gemini`. -/
inductive ErrClass where
  | quota
  | contextTooLong
  | other
  deriving Repr, DecidableEq

/-- The substring tests of the `except Exception` clause, on the lowered
message: quota keywords first, then the context-too-long keywords. -/
def classifyGeminiError (msg : String) : ErrClass :=
  let m := (pyLower msg).data
  if containsSub m "quota".data || containsSub m "resource_exhausted".data ||
      containsSub m "429".data then .quota
  else if containsSub m "context".data &&
      (containsSub m "too long".data || containsSub m "length".data ||
        containsSub m "exceed".data) then .contextTooLong
  else .other

/-- Result of `distill_with_gemini`: the returned pairs, or one of the
raised exceptions. -/
inductive GemResult where
  | pairs (ps : List QAPair)
  | parseFailed (msg : String)
  | ctxTooLong (msg : String)
  | quotaExhausted (msg : String)
  | otherFailed (msg : String)
  | rotatorExhausted (msg : String)
  deriving Repr

/-- `distill_with_gemini` with the rotator: dispatch on the attempt's
outcome and on the error class; quota errors recurse with the rotated
pool (`fuel` bounds the recursion; one more than the key count always
suffices).  Returns the result, the final rotator, and the number of
Gemini calls made. -/
def distillWithGemini (oracle : Nat → GemOutcome) (now : Nat) :
    Nat → Nat → Rotator → GemResult × Rotator × Nat
  | 0, _, rot => (.quotaExhausted "fuel exhausted", rot, 0)
  | fuel + 1, attempt, rot =>
    match oracle attempt with
    | .ok ps => (.pairs ps, rotMarkSuccess now rot, 1)
    | .jsonErr m =>
      let r := rotMarkError now rot
      (if r.2 then .rotatorExhausted m else .parseFailed m, r.1, 1)
    | .err m =>
      match classifyGeminiError m with
      | .quota =>
        let r := rotMarkQuotaExceeded now rot
        match r.2 with
        | some rot' =>
          let rec' := distillWithGemini oracle now fuel (attempt + 1) rot'
          (rec'.1, rec'.2.1, rec'.2.2 + 1)
        | none => (.quotaExhausted m, r.1, 1)
      | .contextTooLong => (.ctxTooLong m, rot, 1)
      | .other =>
        let r := rotMarkError now rot
        (if r.2 then .rotatorExhausted m else .otherFailed m, r.1, 1)

/-- The message of the exception each failing `GemResult` raises (the
Python message prefixes). -/
def raisedMsg : GemResult → String
  | .pairs _ => ""
  | .parseFailed m => "解析Gemini响应失败: " ++ m
  | .ctxTooLong m => "CONTEXT_TOO_LONG: " ++ m
  | .quotaExhausted m => "所有API密钥配额已用完: " ++ m
  | .otherFailed m => "Gemini API调用失败: " ++ m
  | .rotatorExhausted m => m

/-- The distillation step of `DataDistiller.process_file` (rotation
enabled): call `distill_with_gemini`; if it raises and the message
contains `CONTEXT_TOO_LONG`, retry the same text against Zhipu
(`zhipuResult` is the stubbed outcome of `distill_with_zhipu`, an
external provider with larger input tolerance); any other exception
propagates.  Returns the obtained pairs or the propagated error, the
final rotator, and the number of Gemini calls. -/
def processFileDistill (oracle : Nat → GemOutcome) (now fuel : Nat) (rot : Rotator)
    (zhipuResult : Option (List QAPair)) :
    Except String (List QAPair) × Rotator × Nat :=
  let r := distillWithGemini oracle now fuel 0 rot
  match r.1 with
  | .pairs ps => (.ok ps, r.2.1, r.2.2)
  | res =>
    if containsSub (raisedMsg res).data "CONTEXT_TOO_LONG".data then
      match zhipuResult with
      | some ps => (.ok ps, r.2.1, r.2.2)
      | none => (.error "zhipu failed", r.2.1, r.2.2)
    else (.error (raisedMsg res), r.2.1, r.2.2)

/-! ## `FileRouterSkill` (src/skills/router_file.py)

Extension-based routing with scanned-PDF detection.  The file system and
PyMuPDF are external: a `FileInfo` carries what the Python observes (the
path's existence, file-ness and lowered suffix) and a `DetectOutcome`
says how the PyMuPDF read of the PDF went. -/

/-- How `_detect_scanned_pdf`'s interaction with PyMuPDF turns out:
the import fails, the read raises, or the document's page texts are
obtained. -/
inductive DetectOutcome where
  | importFailed
  | raised (msg : String)
  | pages (texts : List (List Char))
  deriving Repr

/-- `_detect_scanned_pdf`: average stripped character count of the first
`check_pages` pages below the threshold means scanned; an `ImportError`
or any other exception means "treat as native" (`False`).  The Python
float comparison `avg < threshold` is written rationally as
`total < threshold * pages`. -/
def detectScannedPdf (threshold checkPages : Nat) : DetectOutcome → Bool
  | .importFailed => false
  | .raised _ => false
  | .pages texts =>
    let pagesToCheck := min checkPages texts.length
    let totalChars := ((texts.take pagesToCheck).map (fun t => (pyStrip t).length)).sum
    if pagesToCheck > 0 then decide (totalChars < threshold * pagesToCheck)
    else decide (0 < threshold)

/-- What `FileRouterSkill.execute` observes about its input path. -/
structure FileInfo where
  pathExists : Bool
  isFile : Bool
  ext : String
  detect : DetectOutcome

/-- The errors `execute` raises. -/
inductive RouteError where
  | notFound
  | notAFile
  | unsupportedType
  deriving Repr, DecidableEq

/-- The routing result (the metadata dict is not modelled; it only echoes
the path and size). -/
structure RouteDecision where
  fileType : String
  isScanned : Bool
  recommendedParser : String
  deriving Repr, DecidableEq

/-- `SUPPORTED_TYPES`. -/
def supportedTypes : List (String × String) :=
  [(".txt", "text"), (".md", "markdown"), (".docx", "word"), (".pdf", "pdf"),
   (".png", "image"), (".jpg", "image"), (".jpeg", "image")]

/-- `FileRouterSkill.execute`: existence and file checks, extension
lookup, scanned-PDF detection for PDFs, OCR for images, native for the
rest. -/
def routerExecute (threshold checkPages : Nat) (fi : FileInfo) :
    Except RouteError RouteDecision :=
  if ¬ fi.pathExists then .error .notFound
  else if ¬ fi.isFile then .error .notAFile
  else
    match supportedTypes.lookup fi.ext with
    | none => .error .unsupportedType
    | some ft =>
      if ft = "pdf" then
        let sc := detectScannedPdf threshold checkPages fi.detect
        .ok ⟨ft, sc, if sc then "ocr" else "native"⟩
      else if ft = "image" then .ok ⟨ft, true, "ocr"⟩
      else .ok ⟨ft, false, "native"⟩

/-! ## Concrete inputs used by counterexample and witness theorems -/

/-- A 220-character text whose cut window contains an exclamation mark
(index 100) and a question mark (index 201) but no full stop. -/
def c6Text : List Char :=
  List.replicate 100 'a' ++ ['！'] ++ List.replicate 100 'a' ++ ['？'] ++ List.replicate 18 'a'

/-- A 13-character text whose first paragraph is 2 characters long. -/
def c5Text : List Char := "ab\n\nc23456789".toList

/-- An LLM response whose single element has whitespace-only `question`. -/
def c8Resp : JVal := .jarr [.jobj [("question", .jstr "   "), ("answer", .jstr " a ")]]

/-- A ten-line document that `_split_content` cuts into ten chunks at
`chunk_size = 2`. -/
def c2Content : List Char := List.intercalate ['\n'] (List.replicate 10 ['a', 'b'])

/-- A stub LLM for the ten-chunk scenario: chunks 3 and 7 permanently
fail, every other chunk yields one pair. -/
def c2F : Nat → DistillOutcome := fun i =>
  if i = 3 then .err "e3" else if i = 7 then .err "e7" else .ok [⟨"q", "a"⟩]

/-- The pairs of the successful chunks in the ten-chunk scenario. -/
def c2G : Nat → List QAPair := fun _ => [⟨"q", "a"⟩]

/-! # Theorems -/

/-- `pyStrip` is right trimming (`List.rdropWhile`) after left trimming. -/
theorem pyStrip_eq (l : List Char) :
    pyStrip l = List.rdropWhile pyIsSpace (l.dropWhile pyIsSpace) := rfl

/-- Stripping a stripped string is a no-op. -/
theorem pyStrip_idem (l : List Char) : pyStrip (pyStrip l) = pyStrip l := by
  have hdw : List.dropWhile pyIsSpace (pyStrip l) = pyStrip l := by
    rcases hm : pyStrip l with _ | ⟨x, xs⟩
    · simp
    · obtain ⟨t, ht⟩ :=
        List.rdropWhile_prefix pyIsSpace (l.dropWhile pyIsSpace)
      rw [← pyStrip_eq, hm] at ht
      have hfix := List.dropWhile_idempotent pyIsSpace l
      rw [← ht] at hfix
      by_cases hx : pyIsSpace x
      · exfalso
        rw [List.cons_append, List.dropWhile_cons_of_pos hx] at hfix
        have := List.IsSuffix.length_le (List.dropWhile_suffix pyIsSpace (l := xs ++ t))
        rw [hfix] at this
        simp at this
      · exact List.dropWhile_cons_of_neg hx
  rw [pyStrip_eq, hdw, pyStrip_eq, List.rdropWhile_idempotent]

/-- `pyStripStr` is idempotent. -/
theorem pyStripStr_idem (s : String) : pyStripStr (pyStripStr s) = pyStripStr s := by
  simp [pyStripStr, pyStrip_idem]

/-- C7.  Short-text identity: a text of length at most `chunk_size` is
returned by both splitters as exactly one chunk equal to the whole input,
covering it from offset 0 to its length. -/
theorem short_text_single_chunk (text : List Char) (cs ov : Nat)
    (outline : List (Nat × List Char)) (respect : Bool)
    (h : text.length ≤ cs) :
    split_text_into_chunks text cs ov = [text] ∧
    smartChunk text outline cs ov respect = [⟨0, text, 0, text.length, none⟩] := by
  constructor
  · unfold split_text_into_chunks
    rw [if_pos h]
  · unfold smartChunk
    rw [if_pos h]

/-- Witness for C7 at a concrete two-character text. -/
theorem short_text_single_chunk_witness :
    ("hi".toList.length ≤ 2000) ∧
    (split_text_into_chunks "hi".toList 2000 200 = ["hi".toList] ∧
      smartChunk "hi".toList [] 2000 200 true = [⟨0, "hi".toList, 0, "hi".toList.length, none⟩]) :=
  ⟨by decide, short_text_single_chunk "hi".toList 2000 200 [] true (by decide)⟩

/-- C10.  Scan detection never fails a route: for an existing PDF path,
when PyMuPDF is not installed or the read raises, `execute` still
succeeds and classifies the document as native. -/
theorem router_detect_failure_is_native (threshold checkPages : Nat) (fi : FileInfo)
    (hex : fi.pathExists = true) (hf : fi.isFile = true) (hext : fi.ext = ".pdf")
    (hd : fi.detect = .importFailed ∨ ∃ m, fi.detect = .raised m) :
    routerExecute threshold checkPages fi = .ok ⟨"pdf", false, "native"⟩ := by
  rcases hd with h | ⟨m, h⟩ <;>
    simp [routerExecute, hex, hf, hext, h, supportedTypes, detectScannedPdf, List.lookup]

/-- Witness for C10 at a concrete missing-PyMuPDF route. -/
theorem router_detect_failure_is_native_witness :
    ((⟨true, true, ".pdf", .importFailed⟩ : FileInfo).pathExists = true) ∧
    routerExecute 100 2 ⟨true, true, ".pdf", .importFailed⟩ = .ok ⟨"pdf", false, "native"⟩ :=
  ⟨rfl, router_detect_failure_is_native 100 2 _ rfl rfl rfl (Or.inl rfl)⟩

/-- The validation loop only strips and filters: every returned pair is a
stripped pair, and no elements are invented. -/
theorem validateLoop_pairs_stripped (items : List JVal) (ps : List (String × String))
    (h : validateLoop items = some ps) :
    (∀ p ∈ ps, (∃ q a, p = (pyStripStr q, pyStripStr a))) ∧ ps.length ≤ items.length := by
  induction items generalizing ps with
  | nil =>
    simp only [validateLoop, Option.some.injEq] at h
    subst h
    simp
  | cons it rest ih =>
    match it with
    | .jstr s => exact (ih ps h).imp id (fun hl => hl.trans (Nat.le_succ _))
    | .jnum n => exact (ih ps h).imp id (fun hl => hl.trans (Nat.le_succ _))
    | .jbool b => exact (ih ps h).imp id (fun hl => hl.trans (Nat.le_succ _))
    | .jnull => exact (ih ps h).imp id (fun hl => hl.trans (Nat.le_succ _))
    | .jarr xs => exact (ih ps h).imp id (fun hl => hl.trans (Nat.le_succ _))
    | .jobj fs =>
      rcases hq : fs.lookup "question" with _ | qv
      all_goals rcases ha : fs.lookup "answer" with _ | av
      all_goals simp only [validateLoop, hq, ha] at h
      all_goals try exact (ih ps h).imp id (fun hl => hl.trans (Nat.le_succ _))
      rcases hqs : jStrip qv with _ | q <;> rw [hqs] at h
      · simp at h
      rcases has : jStrip av with _ | a <;> rw [has] at h
      · simp at h
      rcases htl : validateLoop rest with _ | tl <;> rw [htl] at h
      · simp at h
      simp at h
      subst h
      obtain ⟨hmem, hlen⟩ := ih tl htl
      constructor
      · intro p hp
        rcases List.mem_cons.mp hp with h1 | h1
        · rcases qv with sq | _ | _ | _ | _ | _ <;> simp [jStrip] at hqs
          rcases av with sa | _ | _ | _ | _ | _ <;> simp [jStrip] at has
          refine ⟨sq, sa, ?_⟩
          rw [h1, ← hqs, ← has]
        · exact hmem p h1
      · simpa using Nat.succ_le_succ hlen

/-- C8 (amended).  Every pair returned by `_parse_response`'s validator
has both fields trimmed of surrounding whitespace (stripping a returned
field is a no-op), and elements are only ever discarded, never invented:
for a parsed array, at most one pair per element.  Emptiness after
trimming is NOT checked, so a whitespace-only field is returned as the
empty string. -/
theorem parse_response_fields_trimmed (v : JVal) (ps : List (String × String))
    (h : parseResponsePairs v = some ps) :
    (∀ p ∈ ps, pyStripStr p.1 = p.1 ∧ pyStripStr p.2 = p.2) ∧
    (∀ items, v = .jarr items → ps.length ≤ items.length) := by
  constructor
  · intro p hp
    have hstripped : ∃ q a, p = (pyStripStr q, pyStripStr a) := by
      cases v with
      | jarr items => exact (validateLoop_pairs_stripped items ps h).1 p hp
      | jstr s =>
        simp only [parseResponsePairs, Option.some.injEq] at h
        subst h; simp at hp
      | jnum n =>
        simp only [parseResponsePairs, Option.some.injEq] at h
        subst h; simp at hp
      | jbool b =>
        simp only [parseResponsePairs, Option.some.injEq] at h
        subst h; simp at hp
      | jnull =>
        simp only [parseResponsePairs, Option.some.injEq] at h
        subst h; simp at hp
      | jobj fs =>
        simp only [parseResponsePairs, Option.some.injEq] at h
        subst h; simp at hp
    obtain ⟨q, a, rfl⟩ := hstripped
    exact ⟨pyStripStr_idem q, pyStripStr_idem a⟩
  · intro items hv
    subst hv
    exact (validateLoop_pairs_stripped items ps h).2

/-- Witness for C8 (amended) at a one-element response. -/
theorem parse_response_fields_trimmed_witness :
    (parseResponsePairs (.jarr [.jobj [("question", .jstr " q1 "), ("answer", .jstr "a1")]])
        = some [("q1", "a1")]) ∧
    (∀ p ∈ [(("q1" : String), ("a1" : String))], pyStripStr p.1 = p.1 ∧ pyStripStr p.2 = p.2) ∧
    (∀ items, JVal.jarr [.jobj [("question", .jstr " q1 "), ("answer", .jstr "a1")]] = .jarr items →
      ([(("q1" : String), ("a1" : String))]).length ≤ items.length) :=
  ⟨by rfl,
    parse_response_fields_trimmed
      (.jarr [.jobj [("question", .jstr " q1 "), ("answer", .jstr "a1")]])
      [("q1", "a1")] (by rfl)⟩

/-- C8 (counterexample).  A response element whose `question` is
whitespace-only is kept, with `question` stripped to the empty string:
the parser does not enforce non-emptiness. -/
theorem parse_response_keeps_empty_question :
    parseResponsePairs c8Resp = some [("", "a")] ∧ ("" : String).length = 0 :=
  ⟨by rfl, rfl⟩

/-! ### Cut-point lemmas for `split_text_into_chunks` -/

/-- A successful `rfind` is a match, sitting inside the string. -/
theorem listRfind_matches (w d : List Char) (pos : Nat) (hd : ¬ d = [])
    (h : listRfind w d = some pos) :
    matchesAt w d pos = true ∧ pos + d.length ≤ w.length := by
  have hmatch : matchesAt w d pos = true := by
    unfold listRfind at h
    split at h
    · generalize hn : w.length - d.length = n at h
      clear hn
      induction n with
      | zero =>
        simp only [listRfindAux] at h
        split at h
        · rename_i hm
          obtain rfl : 0 = pos := by simpa using h
          exact hm
        · simp at h
      | succ k ih =>
        simp only [listRfindAux] at h
        split at h
        · rename_i hm
          obtain rfl : k + 1 = pos := by simpa using h
          exact hm
        · exact ih h
    · simp at h
  refine ⟨hmatch, ?_⟩
  unfold matchesAt at hmatch
  have hlen := congrArg List.length (of_decide_eq_true hmatch)
  simp only [List.length_take, List.length_drop] at hlen
  have hd1 : 1 ≤ d.length := by
    rcases d with _ | ⟨c, d'⟩
    · exact absurd rfl hd
    · simp
  omega

/-- `findDelimCut` only reports an `rfind` hit of one of its delimiters. -/
theorem findDelimCut_some (ds : List (List Char)) (w : List Char) (pos dlen : Nat)
    (h : findDelimCut ds w = some (pos, dlen)) :
    ∃ d ∈ ds, listRfind w d = some pos ∧ dlen = d.length := by
  induction ds with
  | nil => simp [findDelimCut] at h
  | cons d ds ih =>
    simp only [findDelimCut] at h
    rcases hr : listRfind w d with _ | p <;> rw [hr] at h
    · obtain ⟨d', hmem, hh⟩ := ih h
      exact ⟨d', List.mem_cons_of_mem _ hmem, hh⟩
    · refine ⟨d, List.mem_cons_self d ds, ?_⟩
      obtain ⟨rfl, rfl⟩ : p = pos ∧ d.length = dlen := by simpa using h
      exact ⟨hr, rfl⟩

/-- If no delimiter has an `rfind` hit, `findDelimCut` reports nothing. -/
theorem findDelimCut_none (ds : List (List Char)) (w : List Char)
    (h : ∀ d ∈ ds, listRfind w d = none) : findDelimCut ds w = none := by
  induction ds with
  | nil => rfl
  | cons d ds ih =>
    simp only [findDelimCut, h d (List.mem_cons_self d ds)]
    exact ih (fun d' hd' => h d' (List.mem_cons_of_mem _ hd'))

/-- A match inside the search window is a match in the whole text. -/
theorem matchesAt_of_window (text d : List Char) (ss se pos : Nat)
    (h : matchesAt (pySlice text ss se) d pos = true) :
    matchesAt text d (ss + pos) = true := by
  unfold matchesAt at h ⊢
  unfold pySlice at h
  have hdrop : ((text.take se).drop ss).drop pos = (text.take se).drop (ss + pos) := by
    rw [List.drop_drop]
  rw [hdrop, List.drop_take] at h
  have heq := of_decide_eq_true h
  rw [List.take_take] at heq
  have hlen := congrArg List.length heq
  simp only [List.length_take, List.length_drop] at hlen
  have hmin : min d.length (se - (ss + pos)) = d.length := by
    rcases Nat.le_total d.length (se - (ss + pos)) with hle | hle
    · exact Nat.min_eq_left hle
    · rw [Nat.min_eq_right hle] at hlen ⊢
      omega
  rw [hmin] at heq
  exact decide_eq_true heq

/-- Each non-empty delimiter. -/
theorem chunkDelimiters_ne_nil : ∀ d ∈ chunkDelimiters, ¬ d = [] := by
  decide

/-- The cut point characterization: the cut is the raw offset when no
delimiter occurs in the window, and otherwise lands right after a
delimiter occurrence in the text. -/
theorem cutEnd_characterization (text : List Char) (cs s : Nat)
    (hinside : s + cs < text.length) :
    ((∀ d ∈ chunkDelimiters,
        listRfind (pySlice text (max (s + cs - 200) s) (min (s + cs + 200) text.length)) d
          = none) →
      cutEnd text cs s = s + cs) ∧
    (cutEnd text cs s = s + cs ∨
      ∃ d ∈ chunkDelimiters,
        matchesAt text d (cutEnd text cs s - d.length) = true ∧
        d.length ≤ cutEnd text cs s ∧
        cutEnd text cs s ≤ min (s + cs + 200) text.length) := by
  constructor
  · intro hnone
    unfold cutEnd
    rw [if_pos hinside, findDelimCut_none _ _ hnone]
  · rcases hf : findDelimCut chunkDelimiters
        (pySlice text (max (s + cs - 200) s) (min (s + cs + 200) text.length))
      with _ | ⟨pos, dlen⟩
    · left
      unfold cutEnd
      rw [if_pos hinside, hf]
    · right
      obtain ⟨d, hmem, hrf, rfl⟩ := findDelimCut_some _ _ _ _ hf
      have hdne := chunkDelimiters_ne_nil d hmem
      obtain ⟨hm, hinw⟩ := listRfind_matches _ _ _ hdne hrf
      have hcut : cutEnd text cs s = max (s + cs - 200) s + pos + d.length := by
        unfold cutEnd
        rw [if_pos hinside, hf]
      refine ⟨d, hmem, ?_, ?_, ?_⟩
      · rw [hcut]
        have : max (s + cs - 200) s + pos + d.length - d.length
            = max (s + cs - 200) s + pos := by omega
        rw [this]
        exact matchesAt_of_window text d _ _ pos hm
      · rw [hcut]; omega
      · rw [hcut]
        have hwl : (pySlice text (max (s + cs - 200) s) (min (s + cs + 200) text.length)).length
            = min (s + cs + 200) text.length - max (s + cs - 200) s := by
          unfold pySlice
          simp only [List.length_drop, List.length_take]
          omega
        rw [hwl] at hinw
        omega

/-- Lower bound on the cut point (the window never reaches back more than
200 characters before the raw offset). -/
theorem cutEnd_lower (text : List Char) (cs s : Nat) :
    s + cs ≤ cutEnd text cs s + 199 := by
  unfold cutEnd
  split
  · rcases hf : findDelimCut chunkDelimiters
        (pySlice text (max (s + cs - 200) s) (min (s + cs + 200) text.length))
      with _ | ⟨pos, dlen⟩
    · dsimp only
      omega
    · obtain ⟨d, hmem, hrf, rfl⟩ := findDelimCut_some _ _ _ _ hf
      have hd1 : 1 ≤ d.length := by
        have := chunkDelimiters_ne_nil d hmem
        rcases d with _ | _
        · simp at this
        · simp
      dsimp only
      omega
  · omega

/-! ### The splitter loop -/

/-- The first emission of the splitter loop starts at the loop's start. -/
theorem splitGo_head (text : List Char) (cs ov : Nat) (fuel s : Nat) :
    ∀ p ∈ (splitGo text cs ov fuel s).head?, p.1 = s := by
  cases fuel with
  | zero => simp [splitGo]
  | succ k =>
    intro p hp
    by_cases hs : s < text.length
    · simp only [splitGo, if_pos hs, List.head?_cons, Option.mem_def,
        Option.some.injEq] at hp
      rw [← hp]
    · simp [splitGo, if_neg hs] at hp

/-- Every emission of the splitter loop has its cut computed by `cutEnd`. -/
theorem splitGo_mem (text : List Char) (cs ov : Nat) :
    ∀ fuel s p, p ∈ splitGo text cs ov fuel s → p.2 = cutEnd text cs p.1 := by
  intro fuel
  induction fuel with
  | zero => simp [splitGo]
  | succ k ih =>
    intro s p hp
    by_cases hs : s < text.length
    · simp only [splitGo, if_pos hs, List.mem_cons] at hp
      rcases hp with rfl | hp
      · simp
      · exact ih _ p hp
    · simp [splitGo, if_neg hs] at hp

/-- Past the end of the text the loop emits nothing. -/
theorem splitGo_nil (text : List Char) (cs ov : Nat) (fuel s : Nat)
    (hs : ¬ s < text.length) : splitGo text cs ov fuel s = [] := by
  cases fuel with
  | zero => rfl
  | succ k => simp [splitGo, if_neg hs]

/-- Cons preserves a known last element. -/
theorem getLast?_cons_of_some {A : Type} (a : A) (l : List A) (p : A)
    (h : l.getLast? = some p) : (a :: l).getLast? = some p := by
  cases l with
  | nil => simp at h
  | cons b t =>
    rw [List.getLast?_cons_cons]
    exact h

/-- With enough fuel, the loop ends with a cut at or past the end of the
text (the final chunk runs to end-of-text), provided the configuration
makes progress (`overlap + 200 ≤ chunk_size`). -/
theorem splitGo_getLast (text : List Char) (cs ov : Nat) (hcfg : ov + 200 ≤ cs) :
    ∀ fuel s, text.length ≤ s + fuel → s < text.length →
      ∃ p, (splitGo text cs ov fuel s).getLast? = some p ∧ text.length ≤ p.2 := by
  intro fuel
  induction fuel with
  | zero =>
    intro s hf hs
    omega
  | succ k ih =>
    intro s hf hs
    by_cases he : cutEnd text cs s < text.length
    · have hlow := cutEnd_lower text cs s
      have hs' : cutEnd text cs s - ov < text.length := by omega
      have hprog : s + 1 ≤ cutEnd text cs s - ov := by omega
      obtain ⟨p, hlast, hlen⟩ := ih (cutEnd text cs s - ov) (by omega) hs'
      refine ⟨p, ?_, hlen⟩
      simp only [splitGo, if_pos hs, if_pos he]
      exact getLast?_cons_of_some _ _ _ hlast
    · refine ⟨(s, cutEnd text cs s), ?_, by omega⟩
      simp only [splitGo, if_pos hs, if_neg he]
      rw [splitGo_nil text cs ov k _ he]
      rfl

set_option maxRecDepth 20000 in
/-- C6 (counterexample).  A 220-character input whose cut window contains
an exclamation mark (index 100) and a question mark (index 201) and no
full stop: the code cuts after the exclamation mark (exclamation has
higher priority than question mark in the source delimiter list), while
the cut the claim describes (priority full stop, question mark,
exclamation mark, double newline; nearest occurrence to the target
offset 210) is after the question mark.  The chunker therefore does not
implement the claimed search. -/
theorem boundary_cut_priority_cex :
    cutEnd c6Text 210 0 = 101 ∧ specCutEnd c6Text 210 0 = 202 ∧
    matchesAt c6Text ['！'] 100 = true ∧ matchesAt c6Text ['？'] 201 = true ∧
    containsSub c6Text ['。'] = false ∧
    (splitPositions c6Text 210 1).head? = some (0, 101) := by
  refine ⟨?_, ?_, ?_, ?_, ?_, ?_⟩ <;> decide

/-- C6 (amended).  The boundary-aware cut algorithm as the code implements
it: for every cut strictly inside the text, if no delimiter of the
source's priority list (full stop + newline, full stop, exclamation mark,
question mark, double newline) occurs in the ±200 window then the cut is
at the raw offset `start + chunk_size`; otherwise the cut lands right
after an occurrence of one of those delimiters, within the window.  The
final chunk always runs to end-of-text, and the first chunk starts at 0
(under the progress condition `overlap + 200 ≤ chunk_size`; the source
defaults are 500 and 15000). -/
theorem boundary_cut_characterized (text : List Char) (cs ov : Nat)
    (hcfg : ov + 200 ≤ cs) :
    (∀ p ∈ splitPositions text cs ov,
        p.1 + cs < text.length →
          ((∀ d ∈ chunkDelimiters,
              listRfind (pySlice text (max (p.1 + cs - 200) p.1)
                (min (p.1 + cs + 200) text.length)) d = none) →
            p.2 = p.1 + cs)
          ∧ (p.2 = p.1 + cs ∨
              ∃ d ∈ chunkDelimiters,
                matchesAt text d (p.2 - d.length) = true ∧ d.length ≤ p.2 ∧
                  p.2 ≤ min (p.1 + cs + 200) text.length)) ∧
    (∀ p, (splitPositions text cs ov).getLast? = some p →
        text.length ≤ p.2 ∧ pyStrip (pySlice text p.1 p.2) = pyStrip (text.drop p.1)) ∧
    (0 < text.length → (splitPositions text cs ov).head? = some (0, cutEnd text cs 0)) := by
  refine ⟨?_, ?_, ?_⟩
  · intro p hp hin
    have hpe := splitGo_mem text cs ov _ _ p hp
    obtain ⟨hraw, hdelim⟩ := cutEnd_characterization text cs p.1 hin
    exact ⟨fun hnone => by rw [hpe]; exact hraw hnone, by rw [hpe]; exact hdelim⟩
  · intro p hlast
    by_cases hpos : 0 < text.length
    · obtain ⟨q, hq, hqlen⟩ :=
        splitGo_getLast text cs ov hcfg (text.length + 1) 0 (by omega) hpos
      have hpq : q = p := by
        rw [splitPositions] at hlast
        rw [hlast] at hq
        exact (Option.some.inj hq).symm
      subst hpq
      refine ⟨hqlen, ?_⟩
      unfold pySlice
      rw [List.take_of_length_le hqlen]
    · exfalso
      have : splitPositions text cs ov = [] := by
        unfold splitPositions
        exact splitGo_nil text cs ov _ 0 hpos
      rw [this] at hlast
      simp at hlast
  · intro hpos
    unfold splitPositions
    rw [splitGo, if_pos hpos, List.head?_cons]

/-- Witness for C6 (amended): a 201-character all-letter text with
`chunk_size = 200`, `overlap = 0`. -/
theorem boundary_cut_characterized_witness :
    (0 + 200 ≤ 200) ∧
    ((∀ p ∈ splitPositions (List.replicate 201 'a') 200 0,
        p.1 + 200 < (List.replicate 201 'a').length →
          ((∀ d ∈ chunkDelimiters,
              listRfind (pySlice (List.replicate 201 'a') (max (p.1 + 200 - 200) p.1)
                (min (p.1 + 200 + 200) (List.replicate 201 'a').length)) d = none) →
            p.2 = p.1 + 200)
          ∧ (p.2 = p.1 + 200 ∨
              ∃ d ∈ chunkDelimiters,
                matchesAt (List.replicate 201 'a') d (p.2 - d.length) = true ∧ d.length ≤ p.2 ∧
                  p.2 ≤ min (p.1 + 200 + 200) (List.replicate 201 'a').length)) ∧
    (∀ p, (splitPositions (List.replicate 201 'a') 200 0).getLast? = some p →
        (List.replicate 201 'a').length ≤ p.2 ∧
          pyStrip (pySlice (List.replicate 201 'a') p.1 p.2)
            = pyStrip ((List.replicate 201 'a').drop p.1)) ∧
    (0 < (List.replicate 201 'a').length →
      (splitPositions (List.replicate 201 'a') 200 0).head?
        = some (0, cutEnd (List.replicate 201 'a') 200 0))) :=
  ⟨by decide, boundary_cut_characterized (List.replicate 201 'a') 200 0 (by decide)⟩

/-! ### The smart chunker's overlap chain -/

/-- `'\n\n'.join` of a singleton. -/
theorem joinNN_single (x : List Char) : joinNN [x] = x := by
  simp [joinNN, List.intercalate]

/-- `'\n\n'.join` of two or more pieces. -/
theorem joinNN_cons_cons (x y : List Char) (rest : List (List Char)) :
    joinNN (x :: y :: rest) = x ++ ['\n', '\n'] ++ joinNN (y :: rest) := by
  simp [joinNN, List.intercalate, List.intersperse]

/-- Joining non-empty pieces gives a non-empty text. -/
theorem joinNN_ne_nil (cur : List (List Char)) (h0 : ¬ cur = [])
    (h1 : ∀ x ∈ cur, ¬ x = []) : ¬ joinNN cur = [] := by
  rcases cur with _ | ⟨x, rest⟩
  · exact absurd rfl h0
  · rcases rest with _ | ⟨y, rest'⟩
    · rw [joinNN_single]
      exact h1 x (by simp)
    · rw [joinNN_cons_cons]
      intro hcontra
      simp at hcontra

/-- The overlap seed has length `min (combined length) overlap` and is
non-empty (for a positive overlap and non-empty pieces). -/
theorem getOverlapText_spec (cur : List (List Char)) (ov : Nat) (hov : 0 < ov)
    (h0 : ¬ cur = []) (hne : ¬ joinNN cur = []) :
    (getOverlapText cur ov).length = min (joinNN cur).length ov ∧
      ¬ getOverlapText cur ov = [] := by
  unfold getOverlapText
  rw [if_neg h0]
  by_cases hle : (joinNN cur).length ≤ ov
  · rw [if_pos hle]
    exact ⟨(Nat.min_eq_left hle).symm, hne⟩
  · rw [if_neg hle]
    unfold tailSlice
    rw [if_neg (by omega)]
    have hlen : ((joinNN cur).drop ((joinNN cur).length - ov)).length = ov := by
      rw [List.length_drop]
      omega
    refine ⟨by rw [hlen, Nat.min_eq_right (by omega)], ?_⟩
    intro hcontra
    rw [hcontra] at hlen
    simp at hlen
    omega

/-- The chunk record appended by the saving block. -/
theorem flushChunk_acc (respect : Bool) (outline : List (Nat × List Char)) (ov : Nat)
    (st : CState) :
    (flushChunk respect outline ov st).acc
      = st.acc ++ [⟨st.id, joinNN st.cur, st.start, st.start + (joinNN st.cur).length,
          chunkMeta respect outline (joinNN st.cur)⟩] := rfl

/-- The saving block preserves the loop invariant. -/
theorem flushChunk_inv (respect : Bool) (outline : List (Nat × List Char)) (ov : Nat)
    (hov : 0 < ov) (st : CState) (hcur : ¬ st.cur = []) (hinv : smartInv ov st) :
    smartInv ov (flushChunk respect outline ov st) := by
  obtain ⟨hchain, hend, hcurne, hhead, hlast⟩ := hinv
  have hjoin := joinNN_ne_nil st.cur hcur hcurne
  obtain ⟨hotlen, hotne⟩ := getOverlapText_spec st.cur ov hov hcur hjoin
  set c : SChunk := ⟨st.id, joinNN st.cur, st.start, st.start + (joinNN st.cur).length,
    chunkMeta respect outline (joinNN st.cur)⟩ with hc
  have hrel : ∀ x ∈ st.acc.getLast?, chunkRel ov x c := by
    intro x hx
    rw [Option.mem_def] at hx
    rw [hx] at hlast
    exact hlast
  refine ⟨?_, ?_, ?_, ?_, ?_⟩
  · rw [flushChunk_acc, ← hc]
    rw [List.chain'_append]
    exact ⟨hchain, List.chain'_singleton c, fun x hx y hy => by
      rw [List.head?_cons, Option.mem_def, Option.some.injEq] at hy
      rw [← hy]
      exact hrel x hx⟩
  · rw [flushChunk_acc, ← hc]
    intro d hd
    rcases List.mem_append.mp hd with hd | hd
    · exact hend d hd
    · rw [List.mem_singleton.mp hd, hc]
  · intro x hx
    have hcur2 : (flushChunk respect outline ov st).cur
        = if getOverlapText st.cur ov = [] then [] else [getOverlapText st.cur ov] := rfl
    rw [hcur2, if_neg hotne] at hx
    rw [List.mem_singleton.mp hx]
    exact hotne
  · intro d hd
    rw [flushChunk_acc, ← hc] at hd
    rcases hacc : st.acc with _ | ⟨a, rest⟩
    · rw [hacc, List.nil_append, List.head?_cons, Option.mem_def, Option.some.injEq] at hd
      rw [← hd]
      show st.start = 0
      rw [hacc] at hlast
      simpa using hlast
    · rw [hacc, List.cons_append, List.head?_cons, Option.mem_def, Option.some.injEq] at hd
      rw [← hd]
      exact hhead a (by rw [hacc]; simp)
  · have hlast2 : ((flushChunk respect outline ov st).acc).getLast? = some c := by
      rw [flushChunk_acc, ← hc]
      exact List.getLast?_concat _
    rw [hlast2]
    show (flushChunk respect outline ov st).start = c.endPos - min c.text.length ov
    have hstart : (flushChunk respect outline ov st).start
        = st.start + (joinNN st.cur).length -
            (if getOverlapText st.cur ov = [] then 0 else (getOverlapText st.cur ov).length) := rfl
    rw [hstart, if_neg hotne, hotlen]

/-- Appending a non-empty piece to the pending chunk preserves the
invariant. -/
theorem append_cur_inv (ov : Nat) (st : CState) (s : List Char) (n : Nat)
    (hs : ¬ s = []) (hinv : smartInv ov st) :
    smartInv ov { st with cur := st.cur ++ [s], size := n } := by
  obtain ⟨hchain, hend, hcurne, hhead, hlast⟩ := hinv
  refine ⟨hchain, hend, ?_, hhead, hlast⟩
  intro x hx
  rcases List.mem_append.mp hx with hx | hx
  · exact hcurne x hx
  · rw [List.mem_singleton.mp hx]
    exact hs

/-- The sentence-loop body preserves the invariant. -/
theorem addSentence_inv (respect : Bool) (outline : List (Nat × List Char)) (cs ov : Nat)
    (hov : 0 < ov) (st : CState) (s : List Char) (hs : ¬ s = []) (hinv : smartInv ov st) :
    smartInv ov (addSentence respect outline cs ov st s) := by
  unfold addSentence
  split
  · rename_i hcond
    exact append_cur_inv ov _ s _ hs
      (flushChunk_inv respect outline ov hov st hcond.2 hinv)
  · exact append_cur_inv ov _ s _ hs hinv

/-- Folding an invariant-preserving body over non-empty pieces preserves
the invariant. -/
theorem foldl_inv (P : CState → Prop) (f : CState → List Char → CState)
    (hf : ∀ st x, ¬ x = [] → P st → P (f st x)) :
    ∀ (l : List (List Char)), (∀ x ∈ l, ¬ x = []) → ∀ st, P st → P (l.foldl f st) := by
  intro l
  induction l with
  | nil => intro _ st h; exact h
  | cons x xs ih =>
    intro hl st h
    exact ih (fun y hy => hl y (List.mem_cons_of_mem _ hy)) _
      (hf st x (hl x (List.mem_cons_self _ _)) h)

/-- Sentences produced by `_split_sentences` are non-empty. -/
theorem splitSentences_ne_nil (s : List Char) : ∀ x ∈ splitSentences s, ¬ x = [] := by
  intro x hx
  unfold splitSentences at hx
  exact of_decide_eq_true (List.mem_filter.mp hx).2

/-- Paragraphs produced by `_split_paragraphs` are non-empty. -/
theorem splitParagraphs_ne_nil (s : List Char) : ∀ x ∈ splitParagraphs s, ¬ x = [] := by
  intro x hx
  unfold splitParagraphs at hx
  exact of_decide_eq_true (List.mem_filter.mp hx).2

/-- The paragraph-loop body preserves the invariant. -/
theorem procPara_inv (respect : Bool) (outline : List (Nat × List Char)) (cs ov : Nat)
    (hov : 0 < ov) (st : CState) (para : List Char) (hp : ¬ para = [])
    (hinv : smartInv ov st) :
    smartInv ov (procPara respect outline cs ov st para) := by
  unfold procPara
  split
  · rename_i hcond
    have hafter := flushChunk_inv respect outline ov hov st hcond.2 hinv
    dsimp only
    split
    · exact foldl_inv (smartInv ov) _
        (fun st' x hx h => addSentence_inv respect outline cs ov hov st' x hx h)
        (splitSentences para) (splitSentences_ne_nil para) _ hafter
    · exact append_cur_inv ov _ para _ hp hafter
  · dsimp only
    split
    · exact foldl_inv (smartInv ov) _
        (fun st' x hx h => addSentence_inv respect outline cs ov hov st' x hx h)
        (splitSentences para) (splitSentences_ne_nil para) _ hinv
    · exact append_cur_inv ov _ para _ hp hinv

/-- The smart chunker's output satisfies the loop invariant's chunk-level
clauses. -/
theorem smartChunk_inv (content : List Char) (outline : List (Nat × List Char))
    (cs ov : Nat) (respect : Bool) (hov : 0 < ov) (hlong : ¬ content.length ≤ cs) :
    List.Chain' (chunkRel ov) (smartChunk content outline cs ov respect) ∧
    (∀ c ∈ smartChunk content outline cs ov respect,
        c.endPos = c.startPos + c.text.length) ∧
    (∀ c ∈ (smartChunk content outline cs ov respect).head?, c.startPos = 0) := by
  have hinit : smartInv ov ⟨[], [], 0, 0, 0⟩ := by
    refine ⟨List.chain'_nil, ?_, ?_, ?_, rfl⟩ <;> simp
  have hfold : smartInv ov
      ((splitParagraphs content).foldl (procPara respect outline cs ov) ⟨[], [], 0, 0, 0⟩) :=
    foldl_inv (smartInv ov) _
      (fun st' x hx h => procPara_inv respect outline cs ov hov st' x hx h)
      (splitParagraphs content) (splitParagraphs_ne_nil content) _ hinit
  set stf := (splitParagraphs content).foldl (procPara respect outline cs ov) ⟨[], [], 0, 0, 0⟩
  have hout : smartChunk content outline cs ov respect
      = if ¬ stf.cur = [] then (flushChunk respect outline ov stf).acc else stf.acc := by
    unfold smartChunk
    rw [if_neg hlong]
  rw [hout]
  split
  · rename_i hne
    obtain ⟨h1, h2, _, h4, _⟩ := flushChunk_inv respect outline ov hov stf hne hfold
    exact ⟨h1, h2, h4⟩
  · obtain ⟨h1, h2, _, h4, _⟩ := hfold
    exact ⟨h1, h2, h4⟩

/-- The splitter loop of `split_text_into_chunks` satisfies the
overlap-chain relation between consecutive cut positions. -/
theorem splitGo_chain (text : List Char) (cs ov : Nat) :
    ∀ fuel s, List.Chain'
      (fun p p' : Nat × Nat => p'.1 = if p.2 < text.length then p.2 - ov else p.2)
      (splitGo text cs ov fuel s) := by
  intro fuel
  induction fuel with
  | zero => intro s; simp [splitGo]
  | succ k ih =>
    intro s
    by_cases hs : s < text.length
    · rw [splitGo, if_pos hs]
      rw [List.chain'_cons']
      refine ⟨?_, ih _⟩
      intro b hb
      rw [splitGo_head text cs ov k _ b hb]
    · rw [splitGo, if_neg hs]
      exact List.chain'_nil

/-- C5 (amended).  The overlap equation, as the code implements it.  For
`split_text_into_chunks` the internal cut positions satisfy it exactly:
the first chunk starts at 0 and each next chunk starts at
`end - overlap`, except that when a cut reaches the end of the text the
loop continues at `end` itself (and then stops).  For the smart chunker
the recorded offsets satisfy `chunk[i+1].start_pos = chunk[i].end_pos -
min (len(chunk[i].text)) overlap`: the overlap seed is the whole
previous chunk when that chunk is shorter than `overlap`, so the stated
equation holds exactly when every emitted chunk is at least `overlap`
long.  Offsets are consistent (`end_pos = start_pos + len(text)`) and
the first chunk starts at 0. -/
theorem chunk_overlap_chain (text : List Char) (cs ov : Nat)
    (outline : List (Nat × List Char)) (respect : Bool) (hov : 0 < ov) :
    List.Chain' (fun p p' : Nat × Nat => p'.1 = if p.2 < text.length then p.2 - ov else p.2)
      (splitPositions text cs ov) ∧
    (∀ p ∈ (splitPositions text cs ov).head?, p.1 = 0) ∧
    List.Chain' (chunkRel ov) (smartChunk text outline cs ov respect) ∧
    (∀ c ∈ smartChunk text outline cs ov respect, c.endPos = c.startPos + c.text.length) ∧
    (∀ c ∈ (smartChunk text outline cs ov respect).head?, c.startPos = 0) := by
  have hsm : List.Chain' (chunkRel ov) (smartChunk text outline cs ov respect) ∧
      (∀ c ∈ smartChunk text outline cs ov respect, c.endPos = c.startPos + c.text.length) ∧
      (∀ c ∈ (smartChunk text outline cs ov respect).head?, c.startPos = 0) := by
    by_cases hlong : text.length ≤ cs
    · unfold smartChunk
      rw [if_pos hlong]
      refine ⟨List.chain'_singleton _, ?_, ?_⟩ <;> simp
    · exact smartChunk_inv text outline cs ov respect hov hlong
  exact ⟨splitGo_chain text cs ov _ 0, splitGo_head text cs ov _ 0,
    hsm.1, hsm.2.1, hsm.2.2⟩

/-- Witness for C5 (amended) at the 13-character two-paragraph document. -/
theorem chunk_overlap_chain_witness :
    (0 < 5) ∧
    (List.Chain' (fun p p' : Nat × Nat => p'.1 = if p.2 < c5Text.length then p.2 - 5 else p.2)
      (splitPositions c5Text 10 5) ∧
    (∀ p ∈ (splitPositions c5Text 10 5).head?, p.1 = 0) ∧
    List.Chain' (chunkRel 5) (smartChunk c5Text [] 10 5 true) ∧
    (∀ c ∈ smartChunk c5Text [] 10 5 true, c.endPos = c.startPos + c.text.length) ∧
    (∀ c ∈ (smartChunk c5Text [] 10 5 true).head?, c.startPos = 0)) :=
  ⟨by decide, chunk_overlap_chain c5Text 10 5 [] true (by decide)⟩

set_option maxRecDepth 20000 in
/-- C5 (counterexample).  On the 13-character document with paragraphs
"ab" and "c23456789" (`chunk_size = 10`, `overlap = 5`) the smart chunker
emits chunks with offsets (0, 2) and (0, 13): the second chunk starts at
`2 - 2 = 0` (the first chunk, "ab", is only 2 characters long, shorter
than the overlap), not at `chunk[0].end - overlap = 2 - 5 = -3`; the
first chunk does not exhaust the source (2 < 13), so neither waiver of
the claim applies. -/
theorem smart_chunk_overlap_cex :
    (smartChunk c5Text [] 10 5 true).map (fun c => (c.startPos, c.endPos, c.text.length))
      = [(0, 2, 2), (0, 13, 13)] ∧
    (2 : Nat) < c5Text.length ∧
    ¬ ((0 : Int) = 2 - 5) :=
  ⟨by decide, by decide, by decide⟩

/-! ### The checkpointed distillation loop -/

/-- `executeDistill` unfolded (the loop result post-processed by the
checkpoint-clearing step). -/
theorem executeDistill_spec (src : String) (f : Nat → DistillOutcome) (content : List Char)
    (cs : Nat) (cp0 : Option Checkpoint) (resume : Bool) (initOut : List QAPair) :
    executeDistill src f content cs cp0 resume initOut
      = (fun r : DState × Bool => if r.2 then r else ({ r.1 with checkpoint := none }, false))
          (distillRun src (splitContent content cs).length f
            ((List.range (splitContent content cs).length).drop (resumeStart cp0 resume).toNat)
            ⟨initOut, cp0, 0, 0, 0⟩) := rfl

/-- When the stub LLM never raises, the loop never aborts and appends
exactly the pairs of the processed chunk indices, in order. -/
theorem distillRun_ok_output (src : String) (N : Nat) (f : Nat → DistillOutcome)
    (hf : ∀ i, ∃ ps, f i = .ok ps) :
    ∀ (l : List Nat) (st : DState),
      (distillRun src N f l st).1.output = st.output ++ (l.map (okPairs f)).flatten ∧
      (distillRun src N f l st).2 = false := by
  intro l
  induction l with
  | nil => intro st; simp [distillRun]
  | cons i rest ih =>
    intro st
    obtain ⟨ps, hps⟩ := hf i
    have hstep : distillStep src N f st i
        = ({ (if ¬ ps = [] then
                { st with apiCalls := st.apiCalls + 1, output := st.output ++ ps,
                          totalQa := st.totalQa + ps.length }
              else { st with apiCalls := st.apiCalls + 1, failed := st.failed + 1 }) with
            checkpoint := some ⟨src, N, (i : Int),
              (if ¬ ps = [] then
                { st with apiCalls := st.apiCalls + 1, output := st.output ++ ps,
                          totalQa := st.totalQa + ps.length }
              else { st with apiCalls := st.apiCalls + 1, failed := st.failed + 1 }).totalQa,
              none⟩ }, false) := by
      unfold distillStep
      rw [hps]
    have hok : okPairs f i = ps := by unfold okPairs; rw [hps]
    unfold distillRun
    rw [hstep]
    simp only [if_neg (by simp : ¬ (false = true))]
    obtain ⟨iho, ihb⟩ := ih _
    refine ⟨?_, ihb⟩
    rw [iho]
    by_cases hps0 : ps = []
    · subst hps0
      simp [hok]
    · rw [if_pos hps0]
      simp [hok]

/-- C1.  Resume idempotence: with a checkpoint recording
`last_processed_chunk = k` and resume enabled, `execute` starts at chunk
`k + 1`; with a deterministic stub LLM that never raises, the resumed run
appends exactly the pairs of chunks `k+1 .. N-1` (none for `0 .. k`), it
completes (clearing the checkpoint), and if the output file already held
exactly the pairs of chunks `0 .. k` the final file equals that of an
uninterrupted run. -/
theorem resume_idempotent (src : String) (f : Nat → DistillOutcome) (content : List Char)
    (cs : Nat) (k N0 q : Nat) (e : Option String) (initOut : List QAPair)
    (hf : ∀ i, ∃ ps, f i = .ok ps) :
    resumeStart (some ⟨src, N0, (k : Int), q, e⟩) true = (k : Int) + 1 ∧
    (executeDistill src f content cs (some ⟨src, N0, (k : Int), q, e⟩) true initOut).1.output
      = initOut ++
        ((((List.range (splitContent content cs).length).drop (k + 1)).map (okPairs f)).flatten) ∧
    (executeDistill src f content cs (some ⟨src, N0, (k : Int), q, e⟩) true initOut).2 = false ∧
    (executeDistill src f content cs (some ⟨src, N0, (k : Int), q, e⟩) true initOut).1.checkpoint
      = none ∧
    (initOut
        = (((List.range (splitContent content cs).length).take (k + 1)).map (okPairs f)).flatten →
      (executeDistill src f content cs (some ⟨src, N0, (k : Int), q, e⟩) true initOut).1.output
        = (executeDistill src f content cs none true []).1.output) := by
  have hrs : resumeStart (some ⟨src, N0, (k : Int), q, e⟩) true = (k : Int) + 1 := rfl
  have htn : ((k : Int) + 1).toNat = k + 1 := by omega
  set N := (splitContent content cs).length with hN
  have hrun := distillRun_ok_output src N f hf
  have hres := hrun ((List.range N).drop (k + 1)) ⟨initOut, some ⟨src, N0, (k : Int), q, e⟩, 0, 0, 0⟩
  have hfresh := hrun ((List.range N).drop 0) ⟨[], none, 0, 0, 0⟩
  have hmain : executeDistill src f content cs (some ⟨src, N0, (k : Int), q, e⟩) true initOut
      = ({ (distillRun src N f ((List.range N).drop (k + 1))
            ⟨initOut, some ⟨src, N0, (k : Int), q, e⟩, 0, 0, 0⟩).1 with checkpoint := none },
          false) := by
    rw [executeDistill_spec, ← hN]
    simp only [hrs, htn, hres.2, Bool.false_eq_true, if_false]
  have hmainf : executeDistill src f content cs none true []
      = ({ (distillRun src N f ((List.range N).drop 0) ⟨[], none, 0, 0, 0⟩).1 with
            checkpoint := none }, false) := by
    rw [executeDistill_spec, ← hN]
    have h0 : (resumeStart none true).toNat = 0 := rfl
    simp only [h0, hfresh.2, Bool.false_eq_true, if_false]
  refine ⟨hrs, ?_, ?_, ?_, ?_⟩
  · rw [hmain]
    exact hres.1
  · rw [hmain]
  · rw [hmain]
  · intro hinit
    rw [hmain, hmainf]
    show (distillRun src N f ((List.range N).drop (k + 1))
        ⟨initOut, some ⟨src, N0, (k : Int), q, e⟩, 0, 0, 0⟩).1.output
      = (distillRun src N f ((List.range N).drop 0) ⟨[], none, 0, 0, 0⟩).1.output
    rw [hres.1, hfresh.1, hinit]
    simp only [List.drop_zero, List.nil_append]
    rw [← List.flatten_append, ← List.map_append, List.take_append_drop]

/-- Witness for C1 at a two-line document resumed from chunk 0. -/
theorem resume_idempotent_witness :
    (∀ i : Nat, ∃ ps : List QAPair, (fun _ : Nat => DistillOutcome.ok [⟨"q", "a"⟩]) i = .ok ps) ∧
    (resumeStart (some ⟨"doc", 2, (0 : Int), 0, none⟩) true = (0 : Int) + 1 ∧
      (executeDistill "doc" (fun _ => .ok [⟨"q", "a"⟩]) ("ab\nab".toList) 2
          (some ⟨"doc", 2, (0 : Int), 0, none⟩) true [⟨"q", "a"⟩]).1.output
        = [⟨"q", "a"⟩] ++
          ((((List.range (splitContent ("ab\nab".toList) 2).length).drop (0 + 1)).map
            (okPairs (fun _ => .ok [⟨"q", "a"⟩]))).flatten) ∧
      (executeDistill "doc" (fun _ => .ok [⟨"q", "a"⟩]) ("ab\nab".toList) 2
          (some ⟨"doc", 2, (0 : Int), 0, none⟩) true [⟨"q", "a"⟩]).2 = false ∧
      (executeDistill "doc" (fun _ => .ok [⟨"q", "a"⟩]) ("ab\nab".toList) 2
          (some ⟨"doc", 2, (0 : Int), 0, none⟩) true [⟨"q", "a"⟩]).1.checkpoint = none ∧
      ([⟨"q", "a"⟩]
          = (((List.range (splitContent ("ab\nab".toList) 2).length).take (0 + 1)).map
            (okPairs (fun _ => .ok [⟨"q", "a"⟩]))).flatten →
        (executeDistill "doc" (fun _ => .ok [⟨"q", "a"⟩]) ("ab\nab".toList) 2
            (some ⟨"doc", 2, (0 : Int), 0, none⟩) true [⟨"q", "a"⟩]).1.output
          = (executeDistill "doc" (fun _ => .ok [⟨"q", "a"⟩]) ("ab\nab".toList) 2
              none true []).1.output)) :=
  ⟨fun _ => ⟨[⟨"q", "a"⟩], rfl⟩,
    resume_idempotent "doc" (fun _ => .ok [⟨"q", "a"⟩]) ("ab\nab".toList) 2 0 2 0 none
      [⟨"q", "a"⟩] (fun _ => ⟨[⟨"q", "a"⟩], rfl⟩)⟩

/-- The loop step on a raised chunk: failure counted, checkpoint rolled
back to `i - 1` with the error recorded, abort decided by the threshold. -/
theorem distillStep_err (src : String) (N : Nat) (f : Nat → DistillOutcome)
    (st : DState) (i : Nat) (msg : String) (h : f i = .err msg) :
    distillStep src N f st i
      = ({ st with failed := st.failed + 1, checkpoint := some ⟨src, N, (i : Int) - 1, st.totalQa, some msg⟩ }, decide (10 * (st.failed + 1) > 3 * N)) := by
  unfold distillStep
  rw [h]

/-- A successful chunk never aborts the loop step. -/
theorem distillStep_ok_no_abort (src : String) (N : Nat) (f : Nat → DistillOutcome)
    (st : DState) (i : Nat) (ps : List QAPair) (h : f i = .ok ps) :
    (distillStep src N f st i).2 = false := by
  unfold distillStep
  rw [h]

/-- The loop aborts only when the failure count passes the 30% threshold,
and then the checkpoint is present (retained). -/
theorem distillRun_abort (src : String) (N : Nat) (f : Nat → DistillOutcome) :
    ∀ (l : List Nat) (st : DState), (distillRun src N f l st).2 = true →
      10 * (distillRun src N f l st).1.failed > 3 * N ∧
      (distillRun src N f l st).1.checkpoint.isSome = true := by
  intro l
  induction l with
  | nil => intro st h; simp [distillRun] at h
  | cons i rest ih =>
    intro st h
    rcases hfi : f i with ps | msg
    · have hstep := distillStep_ok_no_abort src N f st i ps hfi
      unfold distillRun at h ⊢
      rw [hstep] at h ⊢
      simp only [Bool.false_eq_true, if_false] at h ⊢
      exact ih _ h
    · have hstep := distillStep_err src N f st i msg hfi
      unfold distillRun at h ⊢
      rw [hstep] at h ⊢
      by_cases hc : 10 * (st.failed + 1) > 3 * N
      · rw [decide_eq_true hc] at h ⊢
        simp only [if_true] at h ⊢
        exact ⟨hc, rfl⟩
      · rw [decide_eq_false hc] at h ⊢
        simp only [Bool.false_eq_true, if_false] at h ⊢
        exact ih _ h

/-- C2.  Failure tolerance with the 30% abort threshold: a chunk whose
distillation raises is recorded in the checkpoint (rolled back to
`i - 1`, with the error) and the loop continues with the next chunk as
long as the failure count stays within the threshold; the run aborts
only when `failed_chunks` exceeds 30% of the chunk count, and then the
checkpoint is retained (both at loop level and by `execute`, which skips
the checkpoint deletion).  In particular a 10-chunk document whose
chunks 3 and 7 permanently fail completes without aborting, writes the
other 8 chunks' pairs, clears the checkpoint, and counts 2 failed
chunks. -/
theorem failure_tolerance (src : String) (content : List Char) (cs : Nat)
    (f : Nat → DistillOutcome) (g : Nat → List QAPair) (m3 m7 : String) :
    (∀ (st : DState) (i : Nat) (msg : String) (rest : List Nat), f i = .err msg →
      10 * (st.failed + 1) ≤ 3 * (splitContent content cs).length →
      distillRun src (splitContent content cs).length f (i :: rest) st
        = distillRun src (splitContent content cs).length f rest
            { st with failed := st.failed + 1,
                      checkpoint := some ⟨src, (splitContent content cs).length, (i : Int) - 1,
                        st.totalQa, some msg⟩ }) ∧
    (∀ (l : List Nat) (st : DState),
      (distillRun src (splitContent content cs).length f l st).2 = true →
        10 * (distillRun src (splitContent content cs).length f l st).1.failed
            > 3 * (splitContent content cs).length ∧
        (distillRun src (splitContent content cs).length f l st).1.checkpoint.isSome = true) ∧
    (∀ (cp0 : Option Checkpoint) (resume : Bool) (initOut : List QAPair),
      (executeDistill src f content cs cp0 resume initOut).2 = true →
        (executeDistill src f content cs cp0 resume initOut).1.checkpoint.isSome = true) ∧
    ((splitContent content cs).length = 10 →
      f 3 = .err m3 → f 7 = .err m7 →
      (∀ i, ¬ i = 3 → ¬ i = 7 → f i = .ok (g i)) →
      (∀ i, ¬ g i = []) →
      (executeDistill src f content cs none true []).2 = false ∧
      (executeDistill src f content cs none true []).1.checkpoint = none ∧
      (executeDistill src f content cs none true []).1.output
        = g 0 ++ g 1 ++ g 2 ++ g 4 ++ g 5 ++ g 6 ++ g 8 ++ g 9 ∧
      (executeDistill src f content cs none true []).1.failed = 2) := by
  set N := (splitContent content cs).length with hNdef
  refine ⟨?_, distillRun_abort src N f, ?_, ?_⟩
  · intro st i msg rest herr hle
    have hstep := distillStep_err src N f st i msg herr
    have hdec : decide (10 * (st.failed + 1) > 3 * N) = false :=
      decide_eq_false (by omega)
    rw [distillRun, hstep, hdec]
    simp only [Bool.false_eq_true, if_false]
  · intro cp0 resume initOut habort
    have heq : executeDistill src f content cs cp0 resume initOut
        = (if (distillRun src N f ((List.range N).drop (resumeStart cp0 resume).toNat)
              ⟨initOut, cp0, 0, 0, 0⟩).2 then
            distillRun src N f ((List.range N).drop (resumeStart cp0 resume).toNat)
              ⟨initOut, cp0, 0, 0, 0⟩
          else ({ (distillRun src N f ((List.range N).drop (resumeStart cp0 resume).toNat)
              ⟨initOut, cp0, 0, 0, 0⟩).1 with checkpoint := none }, false)) := rfl
    rcases hb : (distillRun src N f ((List.range N).drop (resumeStart cp0 resume).toNat)
        ⟨initOut, cp0, 0, 0, 0⟩).2 with _ | _
    · rw [heq, hb] at habort
      simp at habort
    · rw [heq, hb]
      rw [if_pos rfl]
      exact (distillRun_abort src N f _ _ hb).2
  · intro hN h3 h7 hok hg
    have e0 := hok 0 (by decide) (by decide)
    have e1 := hok 1 (by decide) (by decide)
    have e2 := hok 2 (by decide) (by decide)
    have e4 := hok 4 (by decide) (by decide)
    have e5 := hok 5 (by decide) (by decide)
    have e6 := hok 6 (by decide) (by decide)
    have e8 := hok 8 (by decide) (by decide)
    have e9 := hok 9 (by decide) (by decide)
    have hd : ((List.range 10).drop (resumeStart none true).toNat)
        = [0, 1, 2, 3, 4, 5, 6, 7, 8, 9] := by decide
    have heq2 : executeDistill src f content cs none true []
        = (if (distillRun src N f ((List.range N).drop (resumeStart none true).toNat)
              ⟨[], none, 0, 0, 0⟩).2 then
            distillRun src N f ((List.range N).drop (resumeStart none true).toNat)
              ⟨[], none, 0, 0, 0⟩
          else ({ (distillRun src N f ((List.range N).drop (resumeStart none true).toNat)
              ⟨[], none, 0, 0, 0⟩).1 with checkpoint := none }, false)) := rfl
    rw [heq2, hN, hd]
    simp [distillRun, distillStep, e0, e1, e2, h3, e4, e5, e6, h7, e8, e9,
      hg 0, hg 1, hg 2, hg 4, hg 5, hg 6, hg 8, hg 9]

/-- Witness for C2: the ten-chunk scenario at a concrete document and
stub LLM. -/
theorem failure_tolerance_witness :
    ((splitContent c2Content 2).length = 10) ∧
    (c2F 3 = .err "e3") ∧ (c2F 7 = .err "e7") ∧
    ((executeDistill "doc" c2F c2Content 2 none true []).2 = false ∧
      (executeDistill "doc" c2F c2Content 2 none true []).1.checkpoint = none ∧
      (executeDistill "doc" c2F c2Content 2 none true []).1.output
        = c2G 0 ++ c2G 1 ++ c2G 2 ++ c2G 4 ++ c2G 5 ++ c2G 6 ++ c2G 8 ++ c2G 9 ∧
      (executeDistill "doc" c2F c2Content 2 none true []).1.failed = 2) :=
  ⟨by decide, by decide, by decide,
    (failure_tolerance "doc" c2Content 2 c2F c2G "e3" "e7").2.2.2
      (by decide) (by decide) (by decide)
      (by
        intro i hi3 hi7
        simp [c2F, c2G, hi3, hi7])
      (by
        intro i
        simp [c2G])⟩

/-! ### The credential pool -/

/-- Writing back the element that is already there changes nothing. -/
theorem set_getD_eq {A : Type} (l : List A) (n : Nat) (d : A) :
    l.set n (l.getD n d) = l := by
  induction l generalizing n with
  | nil => simp
  | cons x xs ih =>
    cases n with
    | zero => simp
    | succ k => simpa [List.getD] using ih k

/-- An enabled credential with no cooldown is available, untouched. -/
theorem isApiAvailable_clean (now : Nat) (s : ApiStats)
    (h1 : s.isActive = true) (h2 : s.cooldownUntil = none) :
    isApiAvailable now s = (true, s) := by
  simp [isApiAvailable, h1, h2]

/-- An unavailable credential is returned untouched by the check. -/
theorem isApiAvailable_false_eq (now : Nat) (s : ApiStats)
    (h : (isApiAvailable now s).1 = false) : (isApiAvailable now s).2 = s := by
  by_cases ha : s.isActive = true
  · rcases hcu : s.cooldownUntil with _ | cu
    · simp [isApiAvailable, ha, hcu] at h
    · by_cases hn : now < cu
      · simp [isApiAvailable, ha, hcu, hn]
      · simp [isApiAvailable, ha, hcu, hn] at h
  · simp [isApiAvailable, ha]

/-- On an all-clean pool the scan returns the first probed index. -/
theorem gaaGo_clean (now K start : Nat) (stats : List ApiStats) (fuel i : Nat)
    (hav : ∀ s ∈ stats, s.isActive = true ∧ s.cooldownUntil = none)
    (hlt : (start + i) % K < stats.length) :
    gaaGo now K start (fuel + 1) i stats = (some ((start + i) % K), stats) := by
  have hmem : stats.getD ((start + i) % K) ApiStats.init ∈ stats := by
    rw [List.getD_eq_getElem stats ApiStats.init hlt]
    exact List.getElem_mem hlt
  obtain ⟨h1, h2⟩ := hav _ hmem
  rw [gaaGo, isApiAvailable_clean now _ h1 h2]
  dsimp only
  rw [if_pos rfl, set_getD_eq]

/-- On an all-clean pool `get_available_api` returns `current_index` and
advances it. -/
theorem getAvailableApi_clean (now : Nat) (m : ApiManager)
    (hK : 0 < m.stats.length) (hidx : m.currentIndex < m.stats.length)
    (hrot : m.autoRotate = true)
    (hav : ∀ s ∈ m.stats, s.isActive = true ∧ s.cooldownUntil = none) :
    getAvailableApi now m
      = (some m.currentIndex,
          { m with currentIndex := (m.currentIndex + 1) % m.stats.length }) := by
  have hne : ¬ m.stats = [] := by
    intro h
    rw [h] at hK
    simp at hK
  have hmod : (m.currentIndex + 0) % m.stats.length = m.currentIndex := by
    rw [Nat.add_zero]
    exact Nat.mod_eq_of_lt hidx
  unfold getAvailableApi
  rw [if_neg hne]
  rcases hsz : m.stats.length with _ | k
  · omega
  · rw [hsz] at hmod hidx
    dsimp only
    have hgo := gaaGo_clean now (k + 1) m.currentIndex m.stats k 0 hav
      (by rw [hmod, hsz]; exact hidx)
    rw [hgo, hmod]
    simp [hrot, hsz]

/-- `report_success` keeps a pool clean and does not move the index. -/
theorem reportSuccess_clean (now i : Nat) (m : ApiManager)
    (hav : ∀ s ∈ m.stats, s.isActive = true ∧ s.cooldownUntil = none) :
    (∀ s ∈ (reportSuccess now i m).stats, s.isActive = true ∧ s.cooldownUntil = none) ∧
    (reportSuccess now i m).currentIndex = m.currentIndex ∧
    (reportSuccess now i m).stats.length = m.stats.length ∧
    (reportSuccess now i m).autoRotate = m.autoRotate := by
  unfold reportSuccess
  split
  · refine ⟨?_, rfl, by simp, rfl⟩
    intro s hs
    rcases List.mem_or_eq_of_mem_set hs with hmem | rfl
    · exact hav s hmem
    · have hm2 : m.stats.getD i ApiStats.init ∈ m.stats := by
        rename_i hlt
        rw [List.getD_eq_getElem m.stats ApiStats.init hlt]
        exact List.getElem_mem hlt
      obtain ⟨h1, h2⟩ := hav _ hm2
      exact ⟨h1, h2⟩
  · exact ⟨hav, rfl, rfl, rfl⟩

/-- The fairness run on a clean pool returns exactly the round-robin
sequence starting at `current_index`. -/
theorem acquireSuccessRun_clean (now : Nat) :
    ∀ (n : Nat) (m : ApiManager), 0 < m.stats.length → m.currentIndex < m.stats.length →
      m.autoRotate = true →
      (∀ s ∈ m.stats, s.isActive = true ∧ s.cooldownUntil = none) →
      (acquireSuccessRun now n m).1
        = (List.range n).map (fun j => some ((m.currentIndex + j) % m.stats.length)) := by
  intro n
  induction n with
  | zero => intro m _ _ _ _; simp [acquireSuccessRun]
  | succ k ih =>
    intro m hK hidx hrot hav
    have hacq := getAvailableApi_clean now m hK hidx hrot hav
    have hav1 : ∀ s ∈ ({ m with currentIndex := (m.currentIndex + 1) % m.stats.length }
        : ApiManager).stats, s.isActive = true ∧ s.cooldownUntil = none := hav
    have hrs := reportSuccess_clean now m.currentIndex
      { m with currentIndex := (m.currentIndex + 1) % m.stats.length } hav1
    have hrun : (acquireSuccessRun now (k + 1) m).1
        = (getAvailableApi now m).1 ::
          (acquireSuccessRun now k
            (match (getAvailableApi now m).1 with
              | some i => reportSuccess now i (getAvailableApi now m).2
              | none => (getAvailableApi now m).2)).1 := rfl
    rw [hrun, hacq]
    dsimp only
    have hK2 : (reportSuccess now m.currentIndex
        { m with currentIndex := (m.currentIndex + 1) % m.stats.length }).stats.length
        = m.stats.length := hrs.2.2.1
    have hidx2 : (reportSuccess now m.currentIndex
        { m with currentIndex := (m.currentIndex + 1) % m.stats.length }).currentIndex
        = (m.currentIndex + 1) % m.stats.length := hrs.2.1
    have hrot2 : (reportSuccess now m.currentIndex
        { m with currentIndex := (m.currentIndex + 1) % m.stats.length }).autoRotate
        = true := by
      rw [hrs.2.2.2]
      exact hrot
    have hrec := ih (reportSuccess now m.currentIndex
        { m with currentIndex := (m.currentIndex + 1) % m.stats.length })
      (by rw [hK2]; exact hK)
      (by rw [hidx2, hK2]; exact Nat.mod_lt _ hK) hrot2 hrs.1
    rw [hrec, hidx2, hK2]
    rw [List.range_succ_eq_map]
    simp only [List.map_cons, List.map_map]
    congr 1
    · rw [Nat.add_zero, Nat.mod_eq_of_lt hidx]
    · apply List.map_congr_left
      intro j _
      simp only [Function.comp]
      congr 1
      rw [Nat.mod_add_mod]
      congr 1
      omega

/-- Every credential index occurs in the round-robin sequence. -/
theorem roundRobin_mem (c K t : Nat) (hc : c < K) (ht : t < K) :
    some t ∈ (List.range K).map (fun j => some ((c + j) % K)) := by
  refine List.mem_map.mpr ⟨(K + t - c) % K, List.mem_range.mpr (Nat.mod_lt _ (by omega)), ?_⟩
  congr 1
  calc (c + (K + t - c) % K) % K
      = (c + (K + t - c)) % K := Nat.add_mod_mod c (K + t - c) K
    _ = (K + t) % K := by congr 1; omega
    _ = t % K := Nat.add_mod_left K t
    _ = t := Nat.mod_eq_of_lt ht

/-- The round-robin sequence has no repeats. -/
theorem roundRobin_nodup (c K : Nat) :
    ((List.range K).map (fun j => some ((c + j) % K))).Nodup := by
  refine List.Nodup.map_on ?_ (List.nodup_range K)
  intro j1 h1 j2 h2 heq
  have hmods : (c + j1) % K = (c + j2) % K := Option.some.inj heq
  have hcancel : j1 % K = j2 % K := Nat.ModEq.add_left_cancel' c hmods
  rw [Nat.mod_eq_of_lt (List.mem_range.mp h1), Nat.mod_eq_of_lt (List.mem_range.mp h2)]
    at hcancel
  exact hcancel

/-- The scan finds nothing on an all-unavailable pool, touching nothing. -/
theorem gaaGo_none (now K : Nat) (stats : List ApiStats) (hK : K = stats.length)
    (hKpos : 0 < K)
    (hun : ∀ s ∈ stats, (isApiAvailable now s).1 = false) :
    ∀ (fuel start i : Nat),
      (gaaGo now K start fuel i stats).1 = none ∧ (gaaGo now K start fuel i stats).2 = stats := by
  intro fuel
  induction fuel with
  | zero => intro start i; exact ⟨rfl, rfl⟩
  | succ f ih =>
    intro start i
    have hlt : (start + i) % K < stats.length := by
      rw [← hK]
      exact Nat.mod_lt _ hKpos
    have hmem : stats.getD ((start + i) % K) ApiStats.init ∈ stats := by
      rw [List.getD_eq_getElem stats ApiStats.init hlt]
      exact List.getElem_mem hlt
    have hfalse := hun _ hmem
    have heq2 := isApiAvailable_false_eq now _ hfalse
    rw [gaaGo, hfalse]
    simp only [Bool.false_eq_true, if_false]
    rw [heq2, set_getD_eq]
    exact ih start (i + 1)

/-- `get_available_api` returns `None` (it never raises) when every
credential is unavailable. -/
theorem getAvailableApi_none (now : Nat) (m : ApiManager)
    (hun : ∀ s ∈ m.stats, (isApiAvailable now s).1 = false) :
    (getAvailableApi now m).1 = none := by
  unfold getAvailableApi
  by_cases hne : m.stats = []
  · rw [if_pos hne]
  · rw [if_neg hne]
    dsimp only
    have hKpos : 0 < m.stats.length := List.length_pos.mpr hne
    have h := gaaGo_none now m.stats.length m.stats rfl hKpos hun m.stats.length
      m.currentIndex 0
    rw [h.1]

/-- The scan only returns an index whose availability check passed. -/
theorem gaaGo_some (now K start : Nat) (stats : List ApiStats) :
    ∀ (fuel i idx : Nat), (gaaGo now K start fuel i stats).1 = some idx →
      (isApiAvailable now (stats.getD idx ApiStats.init)).1 = true := by
  intro fuel
  induction fuel with
  | zero => intro i idx h; simp [gaaGo] at h
  | succ f ih =>
    intro i idx h
    rcases hava : (isApiAvailable now (stats.getD ((start + i) % K) ApiStats.init)).1
      with _ | _
    · have heq2 := isApiAvailable_false_eq now _ hava
      rw [gaaGo, hava] at h
      simp only [Bool.false_eq_true, if_false] at h
      rw [heq2, set_getD_eq] at h
      exact ih (i + 1) idx h
    · rw [gaaGo, hava] at h
      simp only [if_true] at h
      have : (start + i) % K = idx := by simpa using h
      rw [← this]
      exact hava

/-- `get_available_api` only returns credentials whose availability check
passed. -/
theorem getAvailableApi_some (now : Nat) (m : ApiManager) (idx : Nat)
    (h : (getAvailableApi now m).1 = some idx) :
    (isApiAvailable now (m.stats.getD idx ApiStats.init)).1 = true := by
  unfold getAvailableApi at h
  by_cases hne : m.stats = []
  · rw [if_pos hne] at h
    simp at h
  · rw [if_neg hne] at h
    dsimp only at h
    have hKpos : 0 < m.stats.length := List.length_pos.mpr hne
    rcases hr : (gaaGo now m.stats.length m.currentIndex m.stats.length 0 m.stats).1
      with _ | j
    · rw [hr] at h
      simp at h
    · rw [hr] at h
      dsimp only at h
      have hji : j = idx := Option.some.inj h
      rw [← hji]
      exact gaaGo_some now m.stats.length m.currentIndex m.stats m.stats.length 0 j hr

/-- C3.  Round-robin fairness: on a pool of `K` enabled, non-cooling
credentials with `auto_rotate`, `K` consecutive `get_available_api`
calls with only `report_success` in between return the round-robin
sequence starting at `current_index` (the index following the
last-issued credential): each credential exactly once, the first being
`current_index`.  And whenever every credential is unavailable,
`get_available_api` returns `None` rather than raising. -/
theorem round_robin_fairness (now : Nat) (m : ApiManager) (K : Nat)
    (hK : m.stats.length = K) (hK0 : 0 < K) (hidx : m.currentIndex < K)
    (hrot : m.autoRotate = true)
    (hav : ∀ s ∈ m.stats, s.isActive = true ∧ s.cooldownUntil = none) :
    (acquireSuccessRun now K m).1
      = (List.range K).map (fun j => some ((m.currentIndex + j) % K)) ∧
    (∀ t, t < K →
      @List.count _ instBEqOfDecidableEq (some t) ((acquireSuccessRun now K m).1) = 1) ∧
    ((acquireSuccessRun now K m).1).head? = some (some m.currentIndex) ∧
    (∀ (m' : ApiManager) (now' : Nat),
      (∀ s ∈ m'.stats, (isApiAvailable now' s).1 = false) →
      (getAvailableApi now' m').1 = none) := by
  have h1 : (acquireSuccessRun now K m).1
      = (List.range K).map (fun j => some ((m.currentIndex + j) % K)) := by
    have h := acquireSuccessRun_clean now K m (by rw [hK]; exact hK0)
      (by rw [hK]; exact hidx) hrot hav
    rw [hK] at h
    exact h
  refine ⟨h1, ?_, ?_, ?_⟩
  · intro t ht
    rw [h1]
    exact List.count_eq_one_of_mem (roundRobin_nodup m.currentIndex K)
      (roundRobin_mem m.currentIndex K t hidx ht)
  · rw [h1]
    rcases hKc : K with _ | k
    · omega
    · rw [List.range_succ_eq_map]
      simp only [List.map_cons, List.head?_cons, Option.some.injEq]
      rw [Nat.add_zero, Nat.mod_eq_of_lt (by omega : m.currentIndex < k + 1)]
  · intro m' now' hun
    exact getAvailableApi_none now' m' hun

/-- Witness for C3 on a three-credential pool starting at index 1. -/
theorem round_robin_fairness_witness :
    (([ApiStats.init, ApiStats.init, ApiStats.init].length = 3) ∧ 0 < 3 ∧ 1 < 3) ∧
    ((acquireSuccessRun 0 3 ⟨[ApiStats.init, ApiStats.init, ApiStats.init], 1, true, 3, 5⟩).1
      = (List.range 3).map (fun j => some ((1 + j) % 3)) ∧
    (∀ t, t < 3 →
      @List.count _ instBEqOfDecidableEq (some t)
        ((acquireSuccessRun 0 3
          ⟨[ApiStats.init, ApiStats.init, ApiStats.init], 1, true, 3, 5⟩).1) = 1) ∧
    ((acquireSuccessRun 0 3
        ⟨[ApiStats.init, ApiStats.init, ApiStats.init], 1, true, 3, 5⟩).1).head?
      = some (some 1) ∧
    (∀ (m' : ApiManager) (now' : Nat),
      (∀ s ∈ m'.stats, (isApiAvailable now' s).1 = false) →
      (getAvailableApi now' m').1 = none)) :=
  ⟨⟨by decide, by decide, by decide⟩,
    round_robin_fairness 0 ⟨[ApiStats.init, ApiStats.init, ApiStats.init], 1, true, 3, 5⟩ 3
      (by decide) (by decide) (by decide) (by decide)
      (by decide)⟩

/-- The fields `report_failure` writes, in terms of the previous stats. -/
theorem failStat_fields (th cd t : Nat) (s : ApiStats) :
    (failStat th cd t s).consecutiveFailures = s.consecutiveFailures + 1 ∧
    (failStat th cd t s).isActive = s.isActive ∧
    (failStat th cd t s).cooldownUntil =
      (if s.consecutiveFailures + 1 ≥ th then some (t + cd) else s.cooldownUntil) := by
  unfold failStat
  by_cases h : s.consecutiveFailures + 1 ≥ th
  · rw [if_pos h]
    exact ⟨rfl, rfl, by rw [if_pos h]⟩
  · rw [if_neg h]
    exact ⟨rfl, rfl, by rw [if_neg h]⟩

/-- State evolution through `n ≤ threshold` consecutive failures from a
clean credential: the counter counts the failures, the credential stays
enabled, and the cooldown is set exactly at the threshold. -/
theorem failN_spec (th cd t : Nat) (s : ApiStats) (hth : 0 < th)
    (hact : s.isActive = true) (hcf : s.consecutiveFailures = 0)
    (hcu : s.cooldownUntil = none) :
    ∀ n, n ≤ th →
      (failN th cd t s n).consecutiveFailures = n ∧
      (failN th cd t s n).isActive = true ∧
      (failN th cd t s n).cooldownUntil = (if n = th then some (t + cd) else none) := by
  intro n
  induction n with
  | zero =>
    intro _
    refine ⟨hcf, hact, ?_⟩
    rw [if_neg (by omega)]
    exact hcu
  | succ k ih =>
    intro hle
    obtain ⟨ihc, iha, ihu⟩ := ih (by omega)
    obtain ⟨fc, fa, fu⟩ := failStat_fields th cd t (failN th cd t s k)
    have hstep : failN th cd t s (k + 1) = failStat th cd t (failN th cd t s k) := rfl
    rw [hstep, fc, fa, fu, ihc, iha, ihu]
    refine ⟨rfl, rfl, ?_⟩
    split_ifs <;> first | rfl | omega

/-- C4.  Cooldown state machine: from a clean credential,
`failure_threshold` consecutive `report_failure` calls at time `t` set
`cooldown_until = t + cooldown`; while `now < cooldown_until` the
availability check fails and `get_available_api` never returns a
credential whose check fails; once `now ≥ cooldown_until` the check
passes again and resets the failure counter and the cooldown; and a
`report_success` after fewer than `failure_threshold` failures resets
the counter with no cooldown ever set. -/
theorem cooldown_state_machine (th cd t tS : Nat) (s : ApiStats) (hth : 0 < th)
    (hact : s.isActive = true) (hcf : s.consecutiveFailures = 0)
    (hcu : s.cooldownUntil = none) :
    (failN th cd t s th).cooldownUntil = some (t + cd) ∧
    (failN th cd t s th).consecutiveFailures = th ∧
    (∀ now, now < t + cd → (isApiAvailable now (failN th cd t s th)).1 = false) ∧
    (∀ (m : ApiManager) (now idx : Nat), (getAvailableApi now m).1 = some idx →
      (isApiAvailable now (m.stats.getD idx ApiStats.init)).1 = true) ∧
    (∀ now, t + cd ≤ now →
      (isApiAvailable now (failN th cd t s th)).1 = true ∧
      (isApiAvailable now (failN th cd t s th)).2.consecutiveFailures = 0 ∧
      (isApiAvailable now (failN th cd t s th)).2.cooldownUntil = none) ∧
    (∀ n, n < th →
      (succStat tS (failN th cd t s n)).consecutiveFailures = 0 ∧
      (succStat tS (failN th cd t s n)).cooldownUntil = none) := by
  obtain ⟨hc, ha, hu⟩ := failN_spec th cd t s hth hact hcf hcu th (le_refl th)
  rw [if_pos rfl] at hu
  refine ⟨hu, hc, ?_, ?_, ?_, ?_⟩
  · intro now hnow
    simp [isApiAvailable, ha, hu, hnow]
  · intro m now idx h
    exact getAvailableApi_some now m idx h
  · intro now hnow
    simp [isApiAvailable, ha, hu, Nat.not_lt.mpr hnow]
  · intro n hn
    obtain ⟨_, _, hu2⟩ := failN_spec th cd t s hth hact hcf hcu n (by omega)
    rw [if_neg (by omega)] at hu2
    exact ⟨rfl, by simp [succStat, hu2]⟩

/-- Witness for C4 at `threshold = 3`, `cooldown = 5`, failures at time
`t = 100`. -/
theorem cooldown_state_machine_witness :
    (0 < 3 ∧ ApiStats.init.isActive = true ∧ ApiStats.init.consecutiveFailures = 0 ∧
      ApiStats.init.cooldownUntil = none) ∧
    ((failN 3 5 100 ApiStats.init 3).cooldownUntil = some (100 + 5) ∧
    (failN 3 5 100 ApiStats.init 3).consecutiveFailures = 3 ∧
    (∀ now, now < 100 + 5 → (isApiAvailable now (failN 3 5 100 ApiStats.init 3)).1 = false) ∧
    (∀ (m : ApiManager) (now idx : Nat), (getAvailableApi now m).1 = some idx →
      (isApiAvailable now (m.stats.getD idx ApiStats.init)).1 = true) ∧
    (∀ now, 100 + 5 ≤ now →
      (isApiAvailable now (failN 3 5 100 ApiStats.init 3)).1 = true ∧
      (isApiAvailable now (failN 3 5 100 ApiStats.init 3)).2.consecutiveFailures = 0 ∧
      (isApiAvailable now (failN 3 5 100 ApiStats.init 3)).2.cooldownUntil = none) ∧
    (∀ n, n < 3 →
      (succStat 200 (failN 3 5 100 ApiStats.init n)).consecutiveFailures = 0 ∧
      (succStat 200 (failN 3 5 100 ApiStats.init n)).cooldownUntil = none)) :=
  ⟨⟨by decide, by decide, by decide, by decide⟩,
    cooldown_state_machine 3 5 100 200 ApiStats.init (by decide) (by decide) (by decide)
      (by decide)⟩

/-! ### Error classification and provider failover -/

/-- The downward scan finds something when a match exists below it. -/
theorem listRfindAux_isSome (s pat : List Char) :
    ∀ (n i : Nat), i ≤ n → matchesAt s pat i = true →
      (listRfindAux s pat n).isSome = true := by
  intro n
  induction n with
  | zero =>
    intro i hi h
    obtain rfl : i = 0 := by omega
    simp [listRfindAux, h]
  | succ k ih =>
    intro i hi h
    by_cases hk : matchesAt s pat (k + 1) = true
    · simp [listRfindAux, hk]
    · have hik : ¬ i = k + 1 := by
        intro hcontra
        rw [hcontra] at h
        exact hk h
      simp only [listRfindAux, hk, Bool.false_eq_true, if_false]
      exact ih i (by omega) h

/-- A match anywhere makes the substring test succeed. -/
theorem containsSub_of_matchesAt (s pat : List Char) (i : Nat)
    (h : matchesAt s pat i = true) : containsSub s pat = true := by
  rcases pat with _ | ⟨p0, prest⟩
  · unfold containsSub listRfind
    rw [if_pos (by simp)]
    apply listRfindAux_isSome s [] _ 0 (Nat.zero_le _)
    simp [matchesAt]
  · have hlen := congrArg List.length (of_decide_eq_true h)
    simp only [List.length_take, List.length_drop, List.length_cons] at hlen
    have hle : (p0 :: prest).length ≤ s.length ∧ i ≤ s.length - (p0 :: prest).length := by
      simp only [List.length_cons]
      omega
    unfold containsSub listRfind
    rw [if_pos hle.1]
    exact listRfindAux_isSome s _ _ i hle.2 h

/-- The raised context-too-long message carries its marker. -/
theorem ctxTooLong_msg_marker (msg : String) :
    containsSub (raisedMsg (.ctxTooLong msg)).data "CONTEXT_TOO_LONG".data = true := by
  apply containsSub_of_matchesAt _ _ 0
  apply decide_eq_true
  rw [List.drop_zero]
  show (("CONTEXT_TOO_LONG: " ++ msg).data.take "CONTEXT_TOO_LONG".data.length)
    = "CONTEXT_TOO_LONG".data
  have hsplit : "CONTEXT_TOO_LONG: ".data = "CONTEXT_TOO_LONG".data ++ ": ".data := by decide
  have hdata : ("CONTEXT_TOO_LONG: " ++ msg).data
      = "CONTEXT_TOO_LONG".data ++ (": ".data ++ msg.data) := by
    rw [String.data_append, hsplit, List.append_assoc]
  rw [hdata]
  exact List.take_left _ _

/-- C9.  Input-too-large escalation: when the Gemini call fails with an
error classified context-too-long, `distill_with_gemini` raises the
distinct `CONTEXT_TOO_LONG` signal immediately — one Gemini call, no
retry, the key pool untouched — and `process_file` catches the marker
and obtains the pairs from the alternate provider (Zhipu) on the same
text. -/
theorem input_too_large_escalation (oracle : Nat → GemOutcome) (now fuel : Nat)
    (rot : Rotator) (msg : String) (zp : List QAPair)
    (h0 : oracle 0 = .err msg) (hc : classifyGeminiError msg = .contextTooLong) :
    distillWithGemini oracle now (fuel + 1) 0 rot = (.ctxTooLong msg, rot, 1) ∧
    containsSub (raisedMsg (.ctxTooLong msg)).data "CONTEXT_TOO_LONG".data = true ∧
    processFileDistill oracle now (fuel + 1) rot (some zp) = (.ok zp, rot, 1) := by
  have h1 : distillWithGemini oracle now (fuel + 1) 0 rot = (.ctxTooLong msg, rot, 1) := by
    rw [distillWithGemini, h0]
    simp only [hc]
  refine ⟨h1, ctxTooLong_msg_marker msg, ?_⟩
  unfold processFileDistill
  rw [h1]
  dsimp only
  rw [if_pos (ctxTooLong_msg_marker msg)]

/-- Witness for C9 on a context-length error message. -/
theorem input_too_large_escalation_witness :
    ((fun _ : Nat => GemOutcome.err "Input context length exceeded") 0
        = .err "Input context length exceeded") ∧
    (classifyGeminiError "Input context length exceeded" = .contextTooLong) ∧
    (distillWithGemini (fun _ => .err "Input context length exceeded") 0 1 0
        ⟨[⟨none, 0, 0, true⟩], 0, 60⟩
      = (.ctxTooLong "Input context length exceeded", ⟨[⟨none, 0, 0, true⟩], 0, 60⟩, 1) ∧
    containsSub (raisedMsg (.ctxTooLong "Input context length exceeded")).data
        "CONTEXT_TOO_LONG".data = true ∧
    processFileDistill (fun _ => .err "Input context length exceeded") 0 1
        ⟨[⟨none, 0, 0, true⟩], 0, 60⟩ (some [⟨"q", "a"⟩])
      = (.ok [⟨"q", "a"⟩], ⟨[⟨none, 0, 0, true⟩], 0, 60⟩, 1)) :=
  ⟨rfl, by decide,
    input_too_large_escalation (fun _ => .err "Input context length exceeded") 0 0
      ⟨[⟨none, 0, 0, true⟩], 0, 60⟩ "Input context length exceeded" [⟨"q", "a"⟩]
      rfl (by decide)⟩

end SLM
